import Mathlib

/-!
Verification of the erigon versioned key-value domain engine
(`erigon-lib/state`: `Domain`, `DomainContext`, `SharedDomains`) against its
natural-language specification.

The Go source is shallowly embedded: byte slices become `List Nat`, the
`btree`/dupsort tables become sorted association lists, `uint64` step and
transaction numbers become `Nat` (with the bitwise step inversion
`^step` made explicit where it matters), fallible code returns `Except`,
and Go `panic` on violated preconditions is rendered as `Except.error`.
Methods of `History`/`InvertedIndex` whose bodies live outside the provided
sources are modelled from the specification and are marked as such in
their doc comments.
-/

set_option maxRecDepth 4000

namespace ErigonState

/-- Byte strings (`[]byte` in Go).  `[]` plays the role of both `nil` and the
empty slice; the engine treats the two alike in every code path modelled
here (`len(v) > 0` tests). -/
abbrev Bytes := List Nat

/-- `bytes.Compare` — lexicographic comparison on byte strings, a shorter
string comparing less than its proper extensions. -/
def bytesCmp : Bytes → Bytes → Ordering
  | [], [] => .eq
  | [], _ :: _ => .lt
  | _ :: _, [] => .gt
  | a :: as, b :: bs =>
    if a < b then .lt else if b < a then .gt else bytesCmp as bs

/-- Strict lexicographic order on byte strings (`bytes.Compare < 0`). -/
def bytesLt (a b : Bytes) : Bool := bytesCmp a b == .lt

/-- `bytes.HasPrefix`. -/
def isPfx (p k : Bytes) : Bool := p.isPrefixOf k

theorem bytesCmp_refl (a : Bytes) : bytesCmp a a = .eq := by
  induction a with
  | nil => rfl
  | cons x xs ih => simp [bytesCmp, ih]

theorem bytesCmp_eq_iff (a b : Bytes) : bytesCmp a b = .eq ↔ a = b := by
  induction a generalizing b with
  | nil => cases b <;> simp [bytesCmp]
  | cons x xs ih =>
    cases b with
    | nil => simp [bytesCmp]
    | cons y ys =>
      by_cases hxy : x < y
      · simp [bytesCmp, hxy]
        intro h
        omega
      · by_cases hyx : y < x
        · simp [bytesCmp, hxy, hyx]
          intro h
          omega
        · have hxyeq : x = y := by omega
          simp [bytesCmp, hxy, hyx, hxyeq, ih]

theorem bytesCmp_swap (a b : Bytes) : (bytesCmp a b).swap = bytesCmp b a := by
  induction a generalizing b with
  | nil => cases b <;> rfl
  | cons x xs ih =>
    cases b with
    | nil => rfl
    | cons y ys =>
      by_cases hxy : x < y
      · have hyx : ¬ y < x := by omega
        simp [bytesCmp, hxy, hyx, Ordering.swap]
      · by_cases hyx : y < x
        · simp [bytesCmp, hxy, hyx, Ordering.swap]
        · simp [bytesCmp, hxy, hyx, ih]

theorem bytesCmp_lt_trans {a b c : Bytes} (hab : bytesCmp a b = .lt)
    (hbc : bytesCmp b c = .lt) : bytesCmp a c = .lt := by
  induction a generalizing b c with
  | nil =>
    cases b with
    | nil => simp [bytesCmp] at hab
    | cons y ys =>
      cases c with
      | nil => simp [bytesCmp] at hbc
      | cons z zs => simp [bytesCmp]
  | cons x xs ih =>
    cases b with
    | nil => simp [bytesCmp] at hab
    | cons y ys =>
      cases c with
      | nil => simp [bytesCmp] at hbc
      | cons z zs =>
        simp only [bytesCmp] at hab hbc ⊢
        by_cases hxy : x < y
        · by_cases hyz : y < z
          · have hxz : x < z := by omega
            simp [hxz]
          · by_cases hzy : z < y
            · simp [hyz, hzy] at hbc
            · have hyzeq : y = z := by omega
              subst hyzeq
              simp [hxy]
        · by_cases hyx : y < x
          · simp [hxy, hyx] at hab
          · have hxyeq : x = y := by omega
            subst hxyeq
            by_cases hyz : x < z
            · simp [hyz]
            · by_cases hzy : z < x
              · simp [hyz, hzy] at hbc
              · simp only [if_neg hxy, if_neg hyx] at hab
                simp only [if_neg hyz, if_neg hzy] at hbc
                simp only [if_neg hxy, if_neg hzy]
                have hzx : ¬ x < z := hyz
                simp only [if_neg hzx]
                exact ih hab hbc

theorem bytesLt_iff (a b : Bytes) : bytesLt a b = true ↔ bytesCmp a b = .lt := by
  unfold bytesLt
  cases bytesCmp a b <;> decide

theorem bytesLt_trans {a b c : Bytes} (hab : bytesLt a b) (hbc : bytesLt b c) :
    bytesLt a c := by
  rw [bytesLt_iff] at *
  exact bytesCmp_lt_trans hab hbc

theorem bytesLt_irrefl (a : Bytes) : bytesLt a a = false := by
  unfold bytesLt
  rw [bytesCmp_refl]
  decide

theorem bytesLt_asymm {a b : Bytes} (h : bytesLt a b) : ¬ bytesLt b a := by
  intro h2
  have := bytesLt_trans h h2
  rw [bytesLt_irrefl] at this
  exact Bool.noConfusion this

theorem bytesLt_total (a b : Bytes) :
    bytesLt a b ∨ a = b ∨ bytesLt b a := by
  rcases h : bytesCmp a b with _ | _ | _
  · left
    rw [bytesLt_iff]
    exact h
  · right; left; exact (bytesCmp_eq_iff a b).mp h
  · right; right
    rw [bytesLt_iff, ← bytesCmp_swap, h]
    rfl

theorem bytesLt_ne {a b : Bytes} (h : bytesLt a b) : a ≠ b := by
  intro he
  subst he
  rw [bytesLt_irrefl] at h
  exact Bool.noConfusion h

/-! ## Existence filter (`ExistenceFilter`, `NewExistenceFilter`,
`AddHash`, `ContainsHash`)

The wrapper logic (the `empty` flag for fewer than two keys, the
short-circuits on `empty`) is translated from the source.  The inner
`bloomfilter.Filter` is an external library; it is modelled from the
specification as a bloom-style bit set: `AddHash` sets the bit positions
derived from the hash, `ContainsHash` tests that they are all set.  The
model is parametric in the position-derivation function `positions`. -/

structure ExistenceFilter where
  empty : Bool
  bits : List Nat
  deriving DecidableEq, Repr

/-- `NewExistenceFilter(keysCount, …)` — a filter built over fewer than 2
keys is marked empty and owns no bit array. -/
def newExistenceFilter (keysCount : Nat) : ExistenceFilter :=
  if keysCount < 2 then { empty := true, bits := [] }
  else { empty := false, bits := [] }

/-- `ExistenceFilter.AddHash` — no-op on an empty-marked filter, otherwise
sets every bit position derived from the hash. -/
def efAddHash (positions : Nat → List Nat) (b : ExistenceFilter) (h : Nat) :
    ExistenceFilter :=
  if b.empty then b else { b with bits := b.bits ++ positions h }

/-- `ExistenceFilter.ContainsHash` — an empty-marked filter always answers
true, otherwise all bit positions derived from the hash must be set. -/
def efContainsHash (positions : Nat → List Nat) (b : ExistenceFilter)
    (v : Nat) : Bool :=
  if b.empty then true else (positions v).all fun i => b.bits.contains i

/-- Add a batch of hashes in order. -/
def efAddHashes (positions : Nat → List Nat) (b : ExistenceFilter)
    (hs : List Nat) : ExistenceFilter :=
  hs.foldl (efAddHash positions) b

theorem efAddHash_empty (positions : Nat → List Nat) (b : ExistenceFilter)
    (h : Nat) : (efAddHash positions b h).empty = b.empty := by
  unfold efAddHash
  split <;> rfl

theorem efAddHash_bits_mono (positions : Nat → List Nat)
    (b : ExistenceFilter) (h x : Nat) (hx : x ∈ b.bits) :
    x ∈ (efAddHash positions b h).bits := by
  unfold efAddHash
  split
  · exact hx
  · simp [hx]

theorem efAddHashes_empty (positions : Nat → List Nat) (b : ExistenceFilter)
    (hs : List Nat) : (efAddHashes positions b hs).empty = b.empty := by
  induction hs generalizing b with
  | nil => rfl
  | cons h t ih =>
    simp only [efAddHashes, List.foldl_cons] at *
    rw [ih, efAddHash_empty]

theorem efAddHashes_bits_mono (positions : Nat → List Nat)
    (b : ExistenceFilter) (hs : List Nat) (x : Nat) (hx : x ∈ b.bits) :
    x ∈ (efAddHashes positions b hs).bits := by
  induction hs generalizing b with
  | nil => exact hx
  | cons h t ih =>
    simp only [efAddHashes, List.foldl_cons] at *
    exact ih _ (efAddHash_bits_mono _ _ _ _ hx)

theorem efContainsHash_of_bits (positions : Nat → List Nat)
    (b : ExistenceFilter) (v : Nat)
    (hb : ∀ i ∈ positions v, i ∈ b.bits) :
    efContainsHash positions b v = true := by
  unfold efContainsHash
  split
  · rfl
  · simp only [List.all_eq_true]
    intro i hi
    simp [List.contains, hb i hi]

theorem efAddHashes_bits_of_mem (positions : Nat → List Nat)
    (b : ExistenceFilter) (hs : List Nat) (h : Nat) (hmem : h ∈ hs)
    (hemp : b.empty = false) (i : Nat) (hi : i ∈ positions h) :
    i ∈ (efAddHashes positions b hs).bits := by
  induction hs generalizing b with
  | nil => cases hmem
  | cons x t ih =>
    simp only [efAddHashes, List.foldl_cons] at *
    rcases List.mem_cons.mp hmem with heq | ht
    · subst heq
      apply efAddHashes_bits_mono
      unfold efAddHash
      simp [hemp, hi]
    · exact ih _ ht (by rw [efAddHash_empty]; exact hemp)

/-- No false negatives: whenever `h` is among the hashes added to a filter
via `AddHash`, a later `ContainsHash h` answers true — for any
position-derivation function the bloom library may use. -/
theorem existenceFilter_no_false_negatives
    (positions : Nat → List Nat) (b : ExistenceFilter) (hs : List Nat)
    (h : Nat) (hmem : h ∈ hs) :
    efContainsHash positions (efAddHashes positions b hs) h = true := by
  by_cases hemp : b.empty = true
  · unfold efContainsHash
    rw [efAddHashes_empty, hemp]
    rfl
  · apply efContainsHash_of_bits
    intro i hi
    exact efAddHashes_bits_of_mem positions b hs h hmem
      (Bool.not_eq_true _ ▸ hemp) i hi

/-- A filter built over fewer than 2 keys is marked empty and answers true
for every queried hash. -/
theorem existenceFilter_small_always_contains
    (positions : Nat → List Nat) (keysCount : Nat) (hk : keysCount < 2)
    (v : Nat) :
    (newExistenceFilter keysCount).empty = true ∧
      efContainsHash positions (newExistenceFilter keysCount) v = true := by
  unfold newExistenceFilter efContainsHash
  simp [hk]

/-- C8: every hash added to an existence filter via `AddHash` is
subsequently reported present by `ContainsHash` (no false negatives), and a
filter built over fewer than 2 keys is marked empty and answers true for
every queried hash. -/
theorem existenceFilter_spec :
    (∀ (positions : Nat → List Nat) (b : ExistenceFilter) (hs : List Nat)
        (h : Nat), h ∈ hs →
        efContainsHash positions (efAddHashes positions b hs) h = true) ∧
      (∀ (positions : Nat → List Nat) (keysCount : Nat), keysCount < 2 →
        (newExistenceFilter keysCount).empty = true ∧
          ∀ v, efContainsHash positions (newExistenceFilter keysCount) v
            = true) := by
  constructor
  · exact existenceFilter_no_false_negatives
  · intro positions keysCount hk
    have h1 := fun v =>
      existenceFilter_small_always_contains positions keysCount hk v
    exact ⟨(h1 0).1, fun v => (h1 v).2⟩

/-- Witness for `existenceFilter_spec`: concrete filter, hash list and
hash for the first part; `keysCount = 1` for the second. -/
theorem existenceFilter_spec_witness :
    efContainsHash (fun h => [h % 5, h % 9])
        (efAddHashes (fun h => [h % 5, h % 9])
          (newExistenceFilter 3) [3, 7, 11]) 7 = true ∧
      efContainsHash (fun h => [h % 5]) (newExistenceFilter 1) 42 = true :=
  ⟨existenceFilter_spec.1 (fun h => [h % 5, h % 9]) (newExistenceFilter 3)
      [3, 7, 11] 7 (by decide),
    (existenceFilter_spec.2 (fun h => [h % 5]) 1 (by decide)).2 42⟩

/-! ## `NewSharedDomains` nesting and the `noFlush` counter

`NewSharedDomains(tx)` with `tx` already a `*SharedDomains` returns that
same instance after incrementing `noFlush`.  `Flush` decrements `noFlush`
when positive and materializes the buffered writers exactly when the
counter has reached zero after that decrement.  The state below keeps the
counter, the pending buffered-writer content, and the writes already
materialized into the key-value store. -/

structure FlushState where
  noFlush : Nat
  buffered : List Bytes
  db : List Bytes
  deriving DecidableEq, Repr

/-- `NewSharedDomains` applied to an existing `*SharedDomains`: the same
instance with `noFlush` incremented (`casted.noFlush++; return casted`). -/
def nestSharedDomains (st : FlushState) : FlushState :=
  { st with noFlush := st.noFlush + 1 }

/-- `SharedDomains.Flush` restricted to its counter discipline: decrement
`noFlush` when positive, then materialize every buffered writer into the
transaction iff the counter is now zero. -/
def flushSD (st : FlushState) : FlushState :=
  let n := if st.noFlush > 0 then st.noFlush - 1 else st.noFlush
  if n = 0 then
    { noFlush := n, buffered := [], db := st.db ++ st.buffered }
  else
    { st with noFlush := n }

/-- C10 counterexample: with one nested view (counter 1), the nested —
innermost — `Flush` already materializes the buffered writes into the
key-value store, contradicting "a nested view's buffered writes reach the
key-value store only at the outermost matching Flush". -/
theorem flush_inner_already_materializes :
    (flushSD (nestSharedDomains
        { noFlush := 0, buffered := [[1]], db := [] })).db = [[1]] := by
  decide

/-- C10 amended: `NewSharedDomains` on a `*SharedDomains` increments the
counter, and `Flush` decrements it when positive and materializes the
buffered writers exactly when the counter after the decrement is zero —
so the first `Flush` bringing the counter to zero (the innermost matching
one), not only the outermost, lands the writes in the store. -/
theorem flushSD_spec (st : FlushState) :
    (nestSharedDomains st).noFlush = st.noFlush + 1 ∧
      flushSD st =
        (if st.noFlush ≤ 1 then
          { noFlush := 0, buffered := [], db := st.db ++ st.buffered }
        else
          { st with noFlush := st.noFlush - 1 }) := by
  refine ⟨rfl, ?_⟩
  unfold flushSD
  rcases st with ⟨n, buf, db⟩
  match n with
  | 0 => simp
  | 1 => simp
  | (k + 2) => simp [Nat.succ_sub_one]


/-! ## Shared domains write path (`SharedDomains.DomainPut`, `DomainGet`)

`SharedDomains` buffers writes in per-domain in-memory maps (`account`,
`code`, `commitment` hash maps and the ordered `storage` map), records a
touch in the commitment context for account/storage/code writes, and
appends `(key, prev, value)` to the per-domain buffered writer.  The state
below keeps exactly those components.  `GetLatest` reads through the
hot tier and files; its result is abstracted as the function `latest`. -/

inductive DomainTag
  | accounts
  | storage
  | code
  | commitment
  deriving DecidableEq, Repr

/-- A buffered-writer record: `PutWithPrev`/`DeleteWithPrev` append the
previous value to history and the (possibly nil, for deletes) new value to
the keys/values collectors.  `val = none` is a delete record. -/
structure WriterOp where
  domain : DomainTag
  key : Bytes
  prev : Bytes
  val : Option Bytes
  deriving DecidableEq, Repr

/-- The `SharedDomains` in-memory component: the four per-domain maps, the
commitment-context touches, and the buffered-writer records. -/
structure SDMaps where
  account : List (Bytes × Bytes)
  code : List (Bytes × Bytes)
  commitment : List (Bytes × Bytes)
  storage : List (Bytes × Bytes)
  touched : List Bytes
  ops : List WriterOp
  deriving DecidableEq, Repr

def assocGet (m : List (Bytes × Bytes)) (k : Bytes) : Option Bytes :=
  (m.find? fun p => p.1 == k).map Prod.snd

def assocPut (m : List (Bytes × Bytes)) (k v : Bytes) : List (Bytes × Bytes) :=
  if m.any fun p => p.1 == k then
    m.map fun p => if p.1 == k then (k, v) else p
  else m ++ [(k, v)]

/-- `SharedDomains.Get` — consult the in-memory map of the domain. -/
def sdGet (st : SDMaps) (tag : DomainTag) (k : Bytes) : Option Bytes :=
  match tag with
  | .accounts => assocGet st.account k
  | .code => assocGet st.code k
  | .storage => assocGet st.storage k
  | .commitment => assocGet st.commitment k

/-- `SharedDomains.put` — write to the in-memory map of the domain. -/
def sdPut (st : SDMaps) (tag : DomainTag) (k v : Bytes) : SDMaps :=
  match tag with
  | .accounts => { st with account := assocPut st.account k v }
  | .code => { st with code := assocPut st.code k v }
  | .storage => { st with storage := assocPut st.storage k v }
  | .commitment => { st with commitment := assocPut st.commitment k v }

/-- `SharedDomainsCommitmentContext.TouchPlainKey`. -/
def touchKey (st : SDMaps) (k : Bytes) : SDMaps :=
  { st with touched := st.touched ++ [k] }

/-- `SharedDomains.DomainGet` — in-memory map first (`LatestAccount` /
`LatestStorage` / `LatestCode` / `LatestCommitment`), on miss fall back to
the domain's `GetLatest`, abstracted by `latest`.  For storage the lookup
key is `k1 ‖ k2`. -/
def domainGet (latest : DomainTag → Bytes → Bytes) (st : SDMaps)
    (name : DomainTag) (k k2 : Bytes) : Bytes :=
  match name with
  | .storage =>
    let key := k ++ k2
    match sdGet st .storage key with
    | some v => v
    | none => latest .storage key
  | _ =>
    match sdGet st name k with
    | some v => v
    | none => latest name k

/-- `SharedDomains.updateAccountData`. -/
def updateAccountData (st : SDMaps) (addr account prev : Bytes) : SDMaps :=
  let st := touchKey st addr
  let st := sdPut st .accounts addr account
  { st with ops := st.ops ++ [⟨.accounts, addr, prev, some account⟩] }

/-- `SharedDomains.updateAccountCode` — zero-length code is recorded as a
delete in the buffered writer. -/
def updateAccountCode (st : SDMaps) (addr code prev : Bytes) : SDMaps :=
  let st := touchKey st addr
  let st := sdPut st .code addr code
  if code.length = 0 then
    { st with ops := st.ops ++ [⟨.code, addr, prev, none⟩] }
  else
    { st with ops := st.ops ++ [⟨.code, addr, prev, some code⟩] }

/-- `SharedDomains.updateCommitmentData` — no commitment-context touch. -/
def updateCommitmentData (st : SDMaps) (pfx data prev : Bytes) : SDMaps :=
  let st := sdPut st .commitment pfx data
  { st with ops := st.ops ++ [⟨.commitment, pfx, prev, some data⟩] }

/-- `SharedDomains.writeAccountStorage` — the composite key is
`addr ‖ loc`. -/
def writeAccountStorage (st : SDMaps) (addr loc value preVal : Bytes) : SDMaps :=
  let composite := addr ++ loc
  let st := touchKey st composite
  let st := sdPut st .storage composite value
  { st with ops := st.ops ++ [⟨.storage, composite, preVal, some value⟩] }

/-- `SharedDomains.DomainPut` — `val == nil` is rejected up front; a `nil`
`prevVal` is first resolved via `DomainGet`; then the per-domain update
runs (for code, an unchanged value is a no-op).  Returns the new state and
the error, mirroring the Go in-place mutation plus error return. -/
def domainPut (latest : DomainTag → Bytes → Bytes) (st : SDMaps)
    (domain : DomainTag) (k1 k2 : Bytes) (val prevVal : Option Bytes) :
    SDMaps × Option String :=
  match val with
  | none => (st, some "DomainPut: trying to put nil value. not allowed")
  | some v =>
    let prev : Bytes :=
      match prevVal with
      | none => domainGet latest st domain k1 k2
      | some p => p
    match domain with
    | .accounts => (updateAccountData st k1 v prev, none)
    | .storage => (writeAccountStorage st k1 k2 v prev, none)
    | .code =>
      if prev == v then (st, none) else (updateAccountCode st k1 v prev, none)
    | .commitment => (updateCommitmentData st k1 v prev, none)

/-- C7: `DomainPut` with a nil value errors before touching any in-memory
map, buffered writer, or commitment context — the returned state is the
input state unchanged — and a nil `prevVal` is first resolved by a
`DomainGet(domain, k1, k2)` lookup: supplying the lookup result explicitly
yields the identical outcome. -/
theorem domainPut_spec (latest : DomainTag → Bytes → Bytes) (st : SDMaps)
    (domain : DomainTag) (k1 k2 : Bytes) (prevVal : Option Bytes) :
    (domainPut latest st domain k1 k2 none prevVal
        = (st, some "DomainPut: trying to put nil value. not allowed")) ∧
      ∀ v, domainPut latest st domain k1 k2 (some v) none
        = domainPut latest st domain k1 k2 (some v)
            (some (domainGet latest st domain k1 k2)) := by
  exact ⟨rfl, fun v => rfl⟩

/-! ## Domain collation (`Domain.collate`)

The hot-tier keys table maps `key → uint64_be(^step)` (duplicate-sorted),
the values table maps `key ‖ uint64_be(^step) → value`.  The dupsort
cursor walk over the keys table is modelled as the list `keysRows` of
`(key, stored inverted step)` pairs; `roTx.GetOne` on the values table is
the function `valsGet`.  The Go `panic` on a misaligned `[txFrom, txTo)`
is an `Except.error`. -/

/-- The stored inverted step `^step` for a `uint64` step. -/
def invStep64 (step : Nat) : Nat := 2 ^ 64 - 1 - step

/-- `Domain.collate` — asserts `txFrom % S == 0 ∧ txTo % S == 0` (panic
otherwise), then walks every `(key, stepInDB)` row of the keys table,
keeps exactly the rows whose stored inverted step equals `^step`, fetches
the latest value under `key ‖ stepInDB` and emits the `(key, value)`
pair. -/
def collate (aggStep step txFrom txTo : Nat)
    (keysRows : List (Bytes × Nat)) (valsGet : Bytes → Nat → Bytes) :
    Except String (List (Bytes × Bytes)) :=
  if txFrom % aggStep ≠ 0 then .error "assert: unexpected txFrom"
  else if txTo % aggStep ≠ 0 then .error "assert: unexpected txTo"
  else .ok ((keysRows.filter fun r => r.2 == invStep64 step).map
    fun r => (r.1, valsGet r.1 r.2))

/-- C9: `collate` fails fatally when `txFrom` or `txTo` is not aligned to
the aggregation step; under the precondition that branch is unreachable
and the collation emits one `(key, latest-value)` pair for exactly those
keys whose stored inverted step equals `^step`. -/
theorem collate_spec (aggStep step txFrom txTo : Nat)
    (keysRows : List (Bytes × Nat)) (valsGet : Bytes → Nat → Bytes) :
    ((txFrom % aggStep ≠ 0 ∨ txTo % aggStep ≠ 0) →
        ∃ e, collate aggStep step txFrom txTo keysRows valsGet
          = .error e) ∧
      (txFrom % aggStep = 0 → txTo % aggStep = 0 → keysRows.Nodup →
        ∃ L, collate aggStep step txFrom txTo keysRows valsGet = .ok L ∧
          (∀ k v, (k, v) ∈ L ↔
            ((k, invStep64 step) ∈ keysRows ∧
              v = valsGet k (invStep64 step))) ∧
          (L.map Prod.fst).Nodup) := by
  constructor
  · intro hbad
    unfold collate
    rcases hbad with h | h
    · exact ⟨"assert: unexpected txFrom", by simp [h]⟩
    · by_cases h1 : txFrom % aggStep = 0
      · exact ⟨"assert: unexpected txTo", by simp [h1, h]⟩
      · exact ⟨"assert: unexpected txFrom", by simp [h1]⟩
  · intro h1 h2 hnd
    refine ⟨(keysRows.filter fun r => r.2 == invStep64 step).map
        (fun r => (r.1, valsGet r.1 r.2)),
      by unfold collate; simp [h1, h2], ?_, ?_⟩
    · intro k v
      constructor
      · intro hm
        simp only [List.mem_map, List.mem_filter, beq_iff_eq] at hm
        obtain ⟨r, ⟨hr, hstep⟩, heq⟩ := hm
        have hk : r.1 = k := congrArg Prod.fst heq
        have hv : v = valsGet r.1 r.2 := (congrArg Prod.snd heq).symm
        constructor
        · rw [← hk, ← hstep]
          exact hr
        · rw [hv, hk, hstep]
      · rintro ⟨hr, hv⟩
        simp only [List.mem_map, List.mem_filter, beq_iff_eq]
        exact ⟨(k, invStep64 step), ⟨hr, rfl⟩, by rw [hv]⟩
    · have hsub : (keysRows.filter fun r => r.2 == invStep64 step).Nodup :=
        hnd.filter _
      have : ((keysRows.filter fun r => r.2 == invStep64 step).map
          Prod.fst).Nodup := by
        apply List.Nodup.map_on ?_ hsub
        intro x hx y hy hxy
        have hx2 : x.2 = invStep64 step := by
          have := (List.mem_filter.mp hx).2
          simpa using this
        have hy2 : y.2 = invStep64 step := by
          have := (List.mem_filter.mp hy).2
          simpa using this
        cases x
        cases y
        simp only at hxy hx2 hy2
        simp [hxy, hx2, hy2]
      simpa [List.map_map, Function.comp] using this

/-- Witness for `collate_spec`: a misaligned `txFrom` errors; an aligned
collation over a single row with the matching inverted step emits that
row's pair. -/
theorem collate_spec_witness :
    (∃ e, collate 4 0 1 4 [([1], invStep64 0)] (fun _ _ => [9])
        = .error e) ∧
      ∃ L, collate 4 0 0 4 [([1], invStep64 0)] (fun _ _ => [9])
          = .ok L ∧ ([1], [9]) ∈ L := by
  constructor
  · exact (collate_spec 4 0 1 4 [([1], invStep64 0)] (fun _ _ => [9])).1
      (Or.inl (by decide))
  · obtain ⟨L, hL, hmem, _⟩ :=
      (collate_spec 4 0 0 4 [([1], invStep64 0)] (fun _ _ => [9])).2
        (by decide) (by decide) (by simp)
    exact ⟨L, hL, (hmem [1] [9]).mpr ⟨by simp, rfl⟩⟩

/-! ## File items and the registry scan (`newFilesItem`,
`Domain.scanStateFiles`, `Domain.integrateFiles`)

A `filesItem` covers the half-open tx range `[startTxNum, endTxNum)`.
The Go `frozen := endStep-startStep == StepsInColdFile` subtraction is on
`uint64`; `usub64` makes the wrap-around explicit.  The per-domain
registry `d.files` (a btree ordered by `filesItemLess`, whose equality is
range equality) is modelled as a list with `filesSet`/`filesGetRange`
honouring that equality. -/

/-- `StepsInColdFile` — files of this size are completely frozen. -/
def StepsInColdFile : Nat := 64

structure FilesItem where
  startTxNum : Nat
  endTxNum : Nat
  frozen : Bool
  deriving DecidableEq, Repr

/-- `uint64` subtraction `a - b` (wrap-around), for `a b < 2^64`. -/
def usub64 (a b : Nat) : Nat := (2 ^ 64 + a - b) % 2 ^ 64

/-- `newFilesItem(startTxNum, endTxNum, stepSize)` — frozen iff the step
range spans exactly `StepsInColdFile` steps. -/
def newFilesItem (startTxNum endTxNum stepSize : Nat) : FilesItem :=
  let startStep := startTxNum / stepSize
  let endStep := endTxNum / stepSize
  let frozen := usub64 endStep startStep == StepsInColdFile
  { startTxNum := startTxNum, endTxNum := endTxNum, frozen := frozen }

/-- `filesItem.isSubsetOf`. -/
def isSubsetOf (i j : FilesItem) : Bool :=
  (decide (j.startTxNum ≤ i.startTxNum) && decide (i.endTxNum ≤ j.endTxNum))
    && (j.startTxNum != i.startTxNum || i.endTxNum != j.endTxNum)

/-- `d.files.Get` under the `filesItemLess` key: an item with the same tx
range is present. -/
def filesGetRange (files : List FilesItem) (s e : Nat) : Bool :=
  files.any fun it => it.startTxNum == s && it.endTxNum == e

/-- `d.files.Set` under the `filesItemLess` key: replace the equal-range
item if present, otherwise insert. -/
def filesSet (files : List FilesItem) (fi : FilesItem) : List FilesItem :=
  if filesGetRange files fi.startTxNum fi.endTxNum then
    files.map fun it =>
      if it.startTxNum == fi.startTxNum && it.endTxNum == fi.endTxNum then fi
      else it
  else files ++ [fi]

/-- Parse a nonempty decimal digit run, returning its value and the
remaining characters (the greedy `([0-9]+)` of the scan regexp). -/
def parseNatDigits (cs : List Char) : Option (Nat × List Char) :=
  let digits := cs.takeWhile fun c => c.isDigit
  if digits.isEmpty then none
  else some (digits.foldl (fun acc c => acc * 10 + (c.toNat - 48)) 0,
    cs.drop digits.length)

/-- Consume an exact character sequence. -/
def stripExact (pat cs : List Char) : Option (List Char) :=
  if pat.isPrefixOf cs then some (cs.drop pat.length) else none

/-- The scan regexp `^v([0-9]+)-<base>.([0-9]+)-([0-9]+).kv$` of
`Domain.scanStateFiles`, with the dots taken literally; yields
`(version, startStep, endStep)`. -/
def parseKvFileName (base : List Char) (name : List Char) :
    Option (Nat × Nat × Nat) := do
  let r1 ← stripExact ['v'] name
  let (ver, r2) ← parseNatDigits r1
  let r3 ← stripExact (('-' :: base) ++ ['.']) r2
  let (fromStep, r4) ← parseNatDigits r3
  let r5 ← stripExact ['-'] r4
  let (toStep, r6) ← parseNatDigits r5
  if r6 = ['.', 'k', 'v'] then pure (ver, fromStep, toStep) else none

/-- One iteration of the `Domain.scanStateFiles` loop over a file name:
parse, drop inverted ranges, build the item with `frozen` overridden to
`false`, skip when an equal-range item exists, divert to garbage when the
item is a subset of a frozen item, otherwise register it.  State is
`(garbageFiles, d.files)`. -/
def scanOne (base : List Char) (aggStep : Nat)
    (st : List FilesItem × List FilesItem) (name : String) :
    List FilesItem × List FilesItem :=
  let garbage := st.1
  let files := st.2
  match parseKvFileName base name.data with
  | none => (garbage, files)
  | some (_, startStep, endStep) =>
    if startStep > endStep then (garbage, files)
    else
      let startTxNum := startStep * aggStep
      let endTxNum := endStep * aggStep
      let newFile :=
        { newFilesItem startTxNum endTxNum aggStep with frozen := false }
      if filesGetRange files startTxNum endTxNum then (garbage, files)
      else
        let subsetOfFrozen :=
          files.any fun item => isSubsetOf newFile item && item.frozen
        if subsetOfFrozen then (garbage ++ [newFile], files)
        else (garbage, files ++ [newFile])

/-- `Domain.scanStateFiles(fileNames)` — returns
`(garbageFiles, updated d.files)`. -/
def scanStateFiles (base : List Char) (aggStep : Nat)
    (files : List FilesItem) (fileNames : List String) :
    List FilesItem × List FilesItem :=
  fileNames.foldl (scanOne base aggStep) ([], files)

/-- `Domain.integrateFiles(sf, txNumFrom, txNumTo)` restricted to the
registry: the new item is built by `newFilesItem` and then explicitly
marked non-frozen before insertion. -/
def integrateFiles (files : List FilesItem) (txNumFrom txNumTo aggStep : Nat) :
    List FilesItem :=
  filesSet files
    { newFilesItem txNumFrom txNumTo aggStep with frozen := false }

/-- C3 counterexample: scanning the on-disk file `v1-accounts.0-64.kv`
(step range of exactly `StepsInColdFile = 64` steps) registers an item
with `frozen = false`, refuting "frozen iff toStep − fromStep == 64" for
items added by scanning files on disk. -/
theorem scanStateFiles_frozen_counterexample :
    ({ startTxNum := 0, endTxNum := 64, frozen := false } : FilesItem) ∈
        (scanStateFiles "accounts".data 1 [] ["v1-accounts.0-64.kv"]).2 ∧
      (64 : Nat) / 1 - 0 / 1 = StepsInColdFile ∧
      ({ startTxNum := 0, endTxNum := 64, frozen := false } :
        FilesItem).frozen = false := by
  refine ⟨?_, by decide, rfl⟩
  have : (scanStateFiles "accounts".data 1 [] ["v1-accounts.0-64.kv"]).2
      = [{ startTxNum := 0, endTxNum := 64, frozen := false }] := by decide
  rw [this]
  exact List.mem_singleton.mpr rfl

theorem usub64_small {a b : Nat} (hba : b ≤ a) (hd : a - b < 2 ^ 64) :
    usub64 a b = a - b := by
  unfold usub64
  have h64 : (2 : Nat) ^ 64 = 18446744073709551616 := by norm_num
  rw [h64] at *
  omega

theorem scanOne_mem (base : List Char) (aggStep : Nat)
    (st : List FilesItem × List FilesItem) (name : String)
    (it : FilesItem) (hm : it ∈ (scanOne base aggStep st name).2) :
    it ∈ st.2 ∨ it.frozen = false := by
  unfold scanOne at hm
  rcases hp : parseKvFileName base name.data with _ | ⟨v, ss, es⟩
  · rw [hp] at hm
    exact Or.inl hm
  · rw [hp] at hm
    simp only at hm
    by_cases h1 : ss > es
    · rw [if_pos h1] at hm
      exact Or.inl hm
    · rw [if_neg h1] at hm
      by_cases h2 : filesGetRange st.2 (ss * aggStep) (es * aggStep) = true
      · rw [if_pos h2] at hm
        exact Or.inl hm
      · rw [if_neg h2] at hm
        by_cases h3 : (st.2.any fun item =>
            isSubsetOf { newFilesItem (ss * aggStep) (es * aggStep) aggStep
              with frozen := false } item && item.frozen) = true
        · rw [if_pos h3] at hm
          exact Or.inl hm
        · rw [if_neg h3] at hm
          rcases List.mem_append.mp hm with h | h
          · exact Or.inl h
          · right
            have : it = { newFilesItem (ss * aggStep) (es * aggStep) aggStep
                with frozen := false } := List.mem_singleton.mp h
            rw [this]

theorem scanStateFiles_foldl_mem (base : List Char) (aggStep : Nat)
    (names : List String) (g files : List FilesItem) (it : FilesItem)
    (hm : it ∈ (names.foldl (scanOne base aggStep) (g, files)).2) :
    it ∈ files ∨ it.frozen = false := by
  induction names generalizing g files with
  | nil => exact Or.inl hm
  | cons n t ih =>
    simp only [List.foldl_cons] at hm
    rcases hs : scanOne base aggStep (g, files) n with ⟨g1, f1⟩
    rw [hs] at hm
    rcases ih g1 f1 hm with h | h
    · have := scanOne_mem base aggStep (g, files) n it (by rw [hs]; exact h)
      exact this
    · exact Or.inr h

/-- C3 amended: an item created by `newFilesItem` is frozen iff its step
range spans exactly `StepsInColdFile = 64` steps (for non-inverted,
non-wrapping ranges); but items registered by `scanStateFiles` and
`integrateFiles` are always marked non-frozen, whatever their range. -/
theorem filesItem_frozen_spec :
    (∀ s e stepSize : Nat, s / stepSize ≤ e / stepSize →
        e / stepSize - s / stepSize < 2 ^ 64 →
        ((newFilesItem s e stepSize).frozen = true ↔
          e / stepSize - s / stepSize = StepsInColdFile)) ∧
      (∀ (base : List Char) (aggStep : Nat) (files : List FilesItem)
          (names : List String) (it : FilesItem),
        it ∈ (scanStateFiles base aggStep files names).2 →
        it ∈ files ∨ it.frozen = false) ∧
      ∀ (files : List FilesItem) (txNumFrom txNumTo aggStep : Nat)
          (it : FilesItem),
        it ∈ integrateFiles files txNumFrom txNumTo aggStep →
        it ∈ files ∨ it.frozen = false := by
  refine ⟨?_, ?_, ?_⟩
  · intro s e stepSize hle hlt
    unfold newFilesItem
    simp only [beq_iff_eq]
    rw [usub64_small hle hlt]
  · intro base aggStep files names it hm
    exact scanStateFiles_foldl_mem base aggStep names [] files it hm
  · intro files f t stepSize it hm
    unfold integrateFiles filesSet at hm
    split at hm
    · rcases List.mem_map.mp hm with ⟨x, hx, hxe⟩
      split at hxe
      · exact Or.inr (by rw [← hxe])
      · exact Or.inl (hxe ▸ hx)
    · rcases List.mem_append.mp hm with h | h
      · exact Or.inl h
      · exact Or.inr (by rw [List.mem_singleton.mp h])

/-- Witness for `filesItem_frozen_spec` at concrete ranges: a 64-step
`newFilesItem` range is frozen; the scanned `v1-accounts.0-64.kv` item is
non-frozen; an integrated one-step item is non-frozen. -/
theorem filesItem_frozen_spec_witness :
    ((newFilesItem 0 1024 16).frozen = true ↔
        1024 / 16 - 0 / 16 = StepsInColdFile) ∧
      (({ startTxNum := 0, endTxNum := 64, frozen := false } : FilesItem)
          ∈ ([] : List FilesItem) ∨
        ({ startTxNum := 0, endTxNum := 64, frozen := false } :
          FilesItem).frozen = false) ∧
      (({ startTxNum := 0, endTxNum := 16, frozen := false } : FilesItem)
          ∈ ([] : List FilesItem) ∨
        ({ startTxNum := 0, endTxNum := 16, frozen := false } :
          FilesItem).frozen = false) := by
  refine ⟨?_, ?_, ?_⟩
  · exact filesItem_frozen_spec.1 0 1024 16 (by decide) (by norm_num)
  · exact filesItem_frozen_spec.2.1 "accounts".data 1 []
      ["v1-accounts.0-64.kv"]
      { startTxNum := 0, endTxNum := 64, frozen := false }
      (by decide)
  · exact filesItem_frozen_spec.2.2 [] 0 16 16
      { startTxNum := 0, endTxNum := 16, frozen := false }
      (by decide)

/-! ## History queries (`GetAsOf`, `GetNoStateWithRecent`) and the unwind
restore pass (`DomainContext.Unwind`)

The mutation history of one key is the list of `(txNum, preImage)` pairs;
the full history across keys is a list of `(key, txNum, preImage)`
triples.  `GetNoStateWithRecent`, `HistoryRange` and `IdxRange` are
`History`/`InvertedIndex` methods whose bodies are not among the provided
sources; they are modelled from the specification, as stated in their doc
comments.  `DomainContext.GetAsOf` and the restore loop of
`DomainContext.Unwind` are translated from the source. -/

/-- The earliest mutation at or after `txNum`: the entry with the smallest
transaction number `≥ txNum` (leftmost on ties). -/
def findFirstMutation (txNum : Nat) : List (Nat × Bytes) → Option (Nat × Bytes)
  | [] => none
  | e :: rest =>
    let r := findFirstMutation txNum rest
    if txNum ≤ e.1 then
      match r with
      | none => some e
      | some b => if e.1 ≤ b.1 then some e else some b
    else r

theorem findFirstMutation_none_iff (txNum : Nat) (l : List (Nat × Bytes)) :
    findFirstMutation txNum l = none ↔ ∀ e ∈ l, e.1 < txNum := by
  induction l with
  | nil => simp [findFirstMutation]
  | cons e rest ih =>
    simp only [findFirstMutation]
    by_cases he : txNum ≤ e.1
    · rw [if_pos he]
      rcases hr : findFirstMutation txNum rest with _ | b
      · simp only [hr]
        constructor
        · intro h
          exact absurd h (by simp)
        · intro h
          exact absurd he (by have := h e (by simp); omega)
      · simp only [hr]
        constructor
        · intro h
          split at h <;> exact absurd h (by simp)
        · intro h
          exact absurd he (by have := h e (by simp); omega)
    · rw [if_neg he]
      rw [ih]
      constructor
      · intro h
        intro x hx
        rcases List.mem_cons.mp hx with hxe | hxr
        · subst hxe; omega
        · exact h x hxr
      · intro h x hx
        exact h x (List.mem_cons_of_mem _ hx)

theorem findFirstMutation_some_mem {txNum : Nat} {l : List (Nat × Bytes)}
    {e : Nat × Bytes} (h : findFirstMutation txNum l = some e) :
    e ∈ l ∧ txNum ≤ e.1 := by
  induction l generalizing e with
  | nil => simp [findFirstMutation] at h
  | cons x rest ih =>
    simp only [findFirstMutation] at h
    split at h
    · rename_i hx
      split at h
      · cases h
        exact ⟨List.mem_cons_self _ _, hx⟩
      · rename_i b hr
        split at h
        · cases h
          exact ⟨List.mem_cons_self _ _, hx⟩
        · cases h
          have hm := ih hr
          exact ⟨List.mem_cons_of_mem _ hm.1, hm.2⟩
    · have hm := ih h
      exact ⟨List.mem_cons_of_mem _ hm.1, hm.2⟩

theorem findFirstMutation_some_min {txNum : Nat} {l : List (Nat × Bytes)} :
    ∀ {e : Nat × Bytes}, findFirstMutation txNum l = some e →
      ∀ x ∈ l, txNum ≤ x.1 → e.1 ≤ x.1 := by
  induction l with
  | nil => intro e h; simp [findFirstMutation] at h
  | cons x rest ih =>
    intro e h y hy hty
    simp only [findFirstMutation] at h
    split at h
    · rename_i hx
      split at h
      · rename_i hr
        cases h
        rcases List.mem_cons.mp hy with hye | hyr
        · subst hye; omega
        · rw [findFirstMutation_none_iff] at hr
          have := hr y hyr
          omega
      · rename_i b hr
        split at h
        · rename_i hle
          cases h
          rcases List.mem_cons.mp hy with hye | hyr
          · subst hye; omega
          · have h2 := ih hr y hyr hty
            omega
        · rename_i hle
          cases h
          rcases List.mem_cons.mp hy with hye | hyr
          · subst hye; omega
          · exact ih hr y hyr hty
    · rename_i hx
      rcases List.mem_cons.mp hy with hye | hyr
      · subst hye; omega
      · exact ih h y hyr hty

/-- Modelled from the spec: `HistoryContext.GetNoStateWithRecent(key,
txNum)` returns the pre-image at `txNum` without consulting domain
values — the pre-image of the smallest mutation `t ≥ txNum` of the key,
with the found flag (`(value, ok)`). -/
def getNoStateWithRecent (hist : List (Nat × Bytes)) (txNum : Nat) :
    Option Bytes :=
  (findFirstMutation txNum hist).map Prod.snd

/-- `DomainContext.GetAsOf` — query history; a found zero-length pre-image
(creation marker) yields nil; a found non-empty pre-image is returned;
otherwise fall through to `GetLatest`, abstracted as `latest`. -/
def getAsOf (hist : List (Nat × Bytes)) (latest : Option Bytes)
    (txNum : Nat) : Option Bytes :=
  match getNoStateWithRecent hist txNum with
  | some v => if v.length = 0 then none else some v
  | none => latest

/-- C2: `GetAsOf(key, txNum)` returns the pre-image of the smallest
mutation `t ≥ txNum` in the key's history — nil when that pre-image has
zero length — and falls through to `GetLatest` when no such mutation
exists.  (`hnd`: the history has one entry per txNum.) -/
theorem getAsOf_spec (hist : List (Nat × Bytes)) (latest : Option Bytes)
    (txNum : Nat) (hnd : (hist.map Prod.fst).Nodup) :
    (∀ e ∈ hist, txNum ≤ e.1 →
        (∀ x ∈ hist, txNum ≤ x.1 → e.1 ≤ x.1) →
        getAsOf hist latest txNum
          = if e.2.length = 0 then none else some e.2) ∧
      ((∀ e ∈ hist, e.1 < txNum) → getAsOf hist latest txNum = latest) := by
  constructor
  · intro e hmem hge hmin
    rcases hr : findFirstMutation txNum hist with _ | b
    · rw [findFirstMutation_none_iff] at hr
      have := hr e hmem
      omega
    · have hb := findFirstMutation_some_mem hr
      have hbmin := findFirstMutation_some_min hr
      have hfst : b.1 = e.1 := by
        have h1 := hbmin e hmem hge
        have h2 := hmin b hb.1 hb.2
        omega
      have hbe : b = e :=
        List.inj_on_of_nodup_map hnd hb.1 hmem hfst
      subst hbe
      unfold getAsOf getNoStateWithRecent
      rw [hr]
      rfl
  · intro hall
    have hr : findFirstMutation txNum hist = none :=
      (findFirstMutation_none_iff txNum hist).mpr hall
    unfold getAsOf getNoStateWithRecent
    rw [hr]
    rfl

/-- Witness for `getAsOf_spec`: a two-mutation history queried between the
mutations returns the later mutation's pre-image; queried after both it
returns the latest value. -/
theorem getAsOf_spec_witness :
    getAsOf [(2, [10]), (7, [20])] (some [30]) 5
        = (if ([20] : Bytes).length = 0 then none else some [20]) ∧
      getAsOf [(2, [10]), (7, [20])] (some [30]) 9 = some [30] := by
  constructor
  · exact (getAsOf_spec [(2, [10]), (7, [20])] (some [30]) 5
      (by decide)).1 (7, [20]) (by decide) (by decide) (by decide)
  · exact (getAsOf_spec [(2, [10]), (7, [20])] (some [30]) 9
      (by decide)).2 (by decide)

/-- Insert a key into an ascending list of keys (helper for the
ascending-key-order iteration of `HistoryRange`). -/
def insertKey (k : Bytes) : List Bytes → List Bytes
  | [] => [k]
  | y :: ys => if bytesLt y k then y :: insertKey k ys else k :: y :: ys

/-- Sort keys ascending by `bytes.Compare`. -/
def sortKeys (l : List Bytes) : List Bytes := l.foldr insertKey []

theorem mem_insertKey (k x : Bytes) (l : List Bytes) :
    x ∈ insertKey k l ↔ x = k ∨ x ∈ l := by
  induction l with
  | nil => simp [insertKey]
  | cons y ys ih =>
    simp only [insertKey]
    split
    · simp only [List.mem_cons, ih]
      tauto
    · exact List.mem_cons

theorem mem_sortKeys (x : Bytes) (l : List Bytes) :
    x ∈ sortKeys l ↔ x ∈ l := by
  induction l with
  | nil => simp [sortKeys]
  | cons y ys ih =>
    simp only [sortKeys, List.foldr_cons] at *
    rw [mem_insertKey]
    simp only [List.mem_cons, ih]

/-- The `(txNum, preImage)` mutation history of one key, extracted from the
full history. -/
def keyHistory (hist : List (Bytes × Nat × Bytes)) (k : Bytes) :
    List (Nat × Bytes) :=
  (hist.filter fun e => e.1 == k).map fun e => e.2

theorem mem_keyHistory (hist : List (Bytes × Nat × Bytes)) (k : Bytes)
    (m : Nat × Bytes) :
    m ∈ keyHistory hist k ↔ (k, m) ∈ hist := by
  unfold keyHistory
  simp only [List.mem_map, List.mem_filter, beq_iff_eq]
  constructor
  · rintro ⟨e, ⟨he, hk⟩, hm⟩
    rcases e with ⟨ek, em⟩
    simp only at hk hm
    subst hk
    subst hm
    exact he
  · intro h
    exact ⟨(k, m), ⟨h, rfl⟩, rfl⟩

/-- The newest mutation with txNum in `(0, fromTx]` — the first element of
the descending `IdxRange(key, fromTx, 0, Desc)` sequence.  Modelled from
the spec: the inverted index holds the set of mutation txNums of the key
and `IdxRange` enumerates the half-open range `[from, to)` in the
requested order (descending: `from` inclusive down to, excluding, `to`). -/
def findLastMutationBelow (fromTx : Nat) : List (Nat × Bytes) → Option Nat
  | [] => none
  | e :: rest =>
    if 0 < e.1 && e.1 ≤ fromTx then
      match findLastMutationBelow fromTx rest with
      | none => some e.1
      | some b => if b ≤ e.1 then some e.1 else some b
    else findLastMutationBelow fromTx rest

theorem findLastMutationBelow_none_iff (fromTx : Nat)
    (l : List (Nat × Bytes)) :
    findLastMutationBelow fromTx l = none ↔
      ∀ e ∈ l, ¬(0 < e.1 ∧ e.1 ≤ fromTx) := by
  induction l with
  | nil => simp [findLastMutationBelow]
  | cons x rest ih =>
    simp only [findLastMutationBelow]
    split
    · rename_i hx
      simp only [Bool.and_eq_true, decide_eq_true_eq] at hx
      constructor
      · intro h
        split at h
        · exact absurd h (by simp)
        · split at h <;> exact absurd h (by simp)
      · intro h
        exact absurd hx (h x (by simp))
    · rename_i hx
      simp only [Bool.and_eq_true, decide_eq_true_eq] at hx
      rw [ih]
      constructor
      · intro h y hy
        rcases List.mem_cons.mp hy with hye | hyr
        · subst hye
          simpa using hx
        · exact h y hyr
      · intro h y hy
        exact h y (List.mem_cons_of_mem _ hy)

theorem findLastMutationBelow_some {fromTx : Nat} {l : List (Nat × Bytes)} :
    ∀ {t : Nat}, findLastMutationBelow fromTx l = some t →
      (∃ e ∈ l, e.1 = t) ∧ 0 < t ∧ t ≤ fromTx ∧
        ∀ x ∈ l, 0 < x.1 → x.1 ≤ fromTx → x.1 ≤ t := by
  induction l with
  | nil => intro t h; simp [findLastMutationBelow] at h
  | cons x rest ih =>
    intro t h
    simp only [findLastMutationBelow] at h
    split at h
    · rename_i hx
      simp only [Bool.and_eq_true, decide_eq_true_eq] at hx
      split at h
      · rename_i hr
        cases h
        refine ⟨⟨x, by simp, rfl⟩, hx.1, hx.2, ?_⟩
        intro y hy h1 h2
        rcases List.mem_cons.mp hy with hye | hyr
        · subst hye; omega
        · rw [findLastMutationBelow_none_iff] at hr
          exact absurd ⟨h1, h2⟩ (hr y hyr)
      · rename_i b hr
        have hbr := ih hr
        split at h
        · rename_i hle
          cases h
          refine ⟨⟨x, by simp, rfl⟩, hx.1, hx.2, ?_⟩
          intro y hy h1 h2
          rcases List.mem_cons.mp hy with hye | hyr
          · subst hye; omega
          · have := hbr.2.2.2 y hyr h1 h2
            omega
        · rename_i hle
          cases h
          obtain ⟨⟨e, he, het⟩, h1, h2, hmax⟩ := hbr
          refine ⟨⟨e, List.mem_cons_of_mem _ he, het⟩, h1, h2, ?_⟩
          intro y hy hy1 hy2
          rcases List.mem_cons.mp hy with hye | hyr
          · subst hye; omega
          · exact hmax y hyr hy1 hy2
    · rename_i hx
      simp only [Bool.and_eq_true, decide_eq_true_eq] at hx
      have hbr := ih h
      obtain ⟨⟨e, he, het⟩, h1, h2, hmax⟩ := hbr
      refine ⟨⟨e, List.mem_cons_of_mem _ he, het⟩, h1, h2, ?_⟩
      intro y hy hy1 hy2
      rcases List.mem_cons.mp hy with hye | hyr
      · subst hye
        exact absurd (And.intro hy1 hy2) hx
      · exact hmax y hyr hy1 hy2

/-- Modelled from the spec: `HistoryContext.HistoryRange(txFrom, -1, Asc)`
— for each key mutated at some `txNum ≥ txFrom`, yields `(key, pre-image
at txFrom)` (the pre-image of the key's smallest mutation `≥ txFrom`), in
ascending key order. -/
def historyRangeFrom (hist : List (Bytes × Nat × Bytes)) (txFrom : Nat) :
    List (Bytes × Bytes) :=
  (sortKeys (hist.map fun e => e.1).dedup).filterMap fun k =>
    match findFirstMutation txFrom (keyHistory hist k) with
    | none => none
    | some e => some (k, e.2)

/-- The restore pass of `DomainContext.Unwind(step, txNumUnwindTo)`:
iterate `HistoryRange(txNumUnwindTo, -1, Asc)`; for each `(key,
pre-image)` pair take the first entry of `IdxRange(key, txNumUnwindTo-1,
0, Desc)` as the txNum for the restored write, falling back to
`txNumUnwindTo - 1` when that range is empty, and append the buffered
write `(key, restoredTxNum, pre-image)`.  The loop body only runs while
`txNumUnwindTo > 0`. -/
def unwindRestoredWrites (hist : List (Bytes × Nat × Bytes))
    (txNumUnwindTo : Nat) : List (Bytes × Nat × Bytes) :=
  if txNumUnwindTo = 0 then []
  else
    (historyRangeFrom hist txNumUnwindTo).map fun kv =>
      let recTxn :=
        match findLastMutationBelow (txNumUnwindTo - 1)
            (keyHistory hist kv.1) with
        | some t => t
        | none => txNumUnwindTo - 1
      (kv.1, recTxn, kv.2)

/-- C1 counterexample: key `[1]` mutated at txNum 2 and txNum 7, unwound
to txNum 5.  The code restores the pre-image `[20]` (the value as of
txNum 5) at txNum **2** — the most recent mutation before the unwind
point — which is neither `txNumUnwindTo - 1 = 4` nor the next mutation's
txNum minus one `7 - 1 = 6` as the claim states. -/
theorem unwind_recorded_txn_counterexample :
    unwindRestoredWrites [([1], 2, [10]), ([1], 7, [20])] 5
        = [([1], 2, [20])] ∧
      (2 : Nat) ≠ 5 - 1 ∧ (2 : Nat) ≠ 7 - 1 := by
  refine ⟨by decide, by decide, by decide⟩

/-- C1 amended: for every key `k` mutated at some `txNum ≥ txNumUnwindTo`
(with `e` its earliest such mutation, whose pre-image is the value as of
`txNumUnwindTo`), `Unwind(step, txNumUnwindTo)` writes that pre-image back
as a fresh latest value recorded at the txNum of the **most recent
mutation of `k` in `(0, txNumUnwindTo - 1]`** when one exists, and at
`txNumUnwindTo - 1` otherwise.  (`hnd`: one history entry per txNum of the
key.) -/
theorem unwind_restored_spec (hist : List (Bytes × Nat × Bytes))
    (txNumUnwindTo : Nat) (k : Bytes) (e : Nat × Bytes)
    (h0 : 0 < txNumUnwindTo)
    (hnd : ((keyHistory hist k).map Prod.fst).Nodup)
    (he : (k, e) ∈ hist) (hge : txNumUnwindTo ≤ e.1)
    (hmin : ∀ m ∈ keyHistory hist k, txNumUnwindTo ≤ m.1 → e.1 ≤ m.1) :
    ∃ t, (k, t, e.2) ∈ unwindRestoredWrites hist txNumUnwindTo ∧
      ((∃ m ∈ keyHistory hist k, m.1 = t ∧ 0 < t ∧
          t ≤ txNumUnwindTo - 1 ∧
          ∀ m2 ∈ keyHistory hist k, 0 < m2.1 → m2.1 ≤ txNumUnwindTo - 1 →
            m2.1 ≤ t) ∨
        ((∀ m ∈ keyHistory hist k, ¬(0 < m.1 ∧ m.1 ≤ txNumUnwindTo - 1)) ∧
          t = txNumUnwindTo - 1)) := by
  have hek : e ∈ keyHistory hist k := (mem_keyHistory hist k e).mpr he
  have hffm : ∃ b, findFirstMutation txNumUnwindTo (keyHistory hist k)
      = some b := by
    rcases hr : findFirstMutation txNumUnwindTo (keyHistory hist k) with _ | b
    · rw [findFirstMutation_none_iff] at hr
      have := hr e hek
      omega
    · exact ⟨b, rfl⟩
  obtain ⟨b, hb⟩ := hffm
  have hbmem := findFirstMutation_some_mem hb
  have hbe : b = e := by
    have h1 := findFirstMutation_some_min hb e hek hge
    have h2 := hmin b hbmem.1 hbmem.2
    exact List.inj_on_of_nodup_map hnd hbmem.1 hek (by omega)
  subst hbe
  have hkmem : k ∈ sortKeys (hist.map fun x => x.1).dedup := by
    rw [mem_sortKeys, List.mem_dedup]
    exact List.mem_map.mpr ⟨(k, b), he, rfl⟩
  have hhr : (k, b.2) ∈ historyRangeFrom hist txNumUnwindTo := by
    unfold historyRangeFrom
    apply List.mem_filterMap.mpr
    exact ⟨k, hkmem, by rw [hb]⟩
  have hne : txNumUnwindTo ≠ 0 := by omega
  rcases hlast : findLastMutationBelow (txNumUnwindTo - 1)
      (keyHistory hist k) with _ | tv
  · refine ⟨txNumUnwindTo - 1, ?_, ?_⟩
    · unfold unwindRestoredWrites
      rw [if_neg hne]
      apply List.mem_map.mpr
      refine ⟨(k, b.2), hhr, ?_⟩
      simp only [hlast]
    · right
      rw [findLastMutationBelow_none_iff] at hlast
      exact ⟨hlast, rfl⟩
  · refine ⟨tv, ?_, ?_⟩
    · unfold unwindRestoredWrites
      rw [if_neg hne]
      apply List.mem_map.mpr
      refine ⟨(k, b.2), hhr, ?_⟩
      simp only [hlast]
    · left
      have := findLastMutationBelow_some hlast
      obtain ⟨⟨m, hm, hmt⟩, h1, h2, hmax⟩ := this
      exact ⟨m, hm, hmt, h1, h2, hmax⟩

/-- Witness for `unwind_restored_spec`: key `[1]` with mutations at
txNums 2 and 7, unwound to 5 — the restored write is recorded at txNum 2
(the most recent mutation in `(0, 4]`). -/
theorem unwind_restored_spec_witness :
    ∃ t, ([1], t, [20]) ∈
        unwindRestoredWrites [([1], 2, [10]), ([1], 7, [20])] 5 ∧
      ((∃ m ∈ keyHistory [([1], 2, [10]), ([1], 7, [20])] [1],
          m.1 = t ∧ 0 < t ∧ t ≤ 5 - 1 ∧
          ∀ m2 ∈ keyHistory [([1], 2, [10]), ([1], 7, [20])] [1],
            0 < m2.1 → m2.1 ≤ 5 - 1 → m2.1 ≤ t) ∨
        ((∀ m ∈ keyHistory [([1], 2, [10]), ([1], 7, [20])] [1],
            ¬(0 < m.1 ∧ m.1 ≤ 5 - 1)) ∧ t = 5 - 1)) :=
  unwind_restored_spec [([1], 2, [10]), ([1], 7, [20])] 5 [1] (7, [20])
    (by decide) (by decide) (by decide) (by decide) (by decide)

/-! ## The k-way merge iterators (`DomainContext.IteratePrefix`,
`SharedDomains.IterateStoragePrefix`)

Both functions merge per-tier cursors over a heap (`CursorHeap`) ordered
by `(key asc, endTxNum desc)` (`reverse = true`), emit each distinct key
once with the top cursor's value, and skip empty values.  A cursor is
modelled by its current `(key, val, endTxNum)` plus the remaining rows of
its backing table (`rest`); advancing checks the prefix and — for the
hot-tier cursor of `IterateStoragePrefix` — enforces
`ram ahead of db` (`haveRamUpdates && endTxNum >= sd.txNum` errors).
The `container/heap` contract is modelled by `extractMin`, which removes
a `curLess`-minimal element.  The loops are structurally recursive on an
explicit fuel, with `mergeRun` supplying provably sufficient fuel, so all
functions evaluate by kernel reduction. -/

inductive CurKind
  | ram
  | db
  | file
  deriving DecidableEq, Repr

/-- A pending row of a cursor's backing table.  For a db cursor `num` is
the numeric step decoded from the stored inverted step of the row; for
ram/file cursors it is unused (their endTxNum is fixed). -/
structure MEntry where
  key : Bytes
  val : Bytes
  num : Nat
  deriving DecidableEq, Repr

/-- `CursorItem`. -/
structure Cur where
  kind : CurKind
  key : Bytes
  val : Bytes
  endTxNum : Nat
  rest : List MEntry
  deriving DecidableEq, Repr

/-- The parameters threaded through one iteration: the prefix, the
`haveRamUpdates` flag, `sd.txNum` and the aggregation step size. -/
structure MergeEnv where
  pfx : Bytes
  haveRam : Bool
  txNum : Nat
  stepSize : Nat
  deriving DecidableEq, Repr

/-- `CursorHeap.Less` with `reverse = true`: ascending key, and for equal
keys the item with the later endTxNum is preferred. -/
def curLess (a b : Cur) : Bool :=
  match bytesCmp a.key b.key with
  | .lt => true
  | .gt => false
  | .eq => decide (b.endTxNum < a.endTxNum)

/-- Remove a `curLess`-minimal element (the leftmost one on ties),
modelling `heap.Pop` / reading `cp[0]` of `container/heap`. -/
def extractMin : List Cur → Option (Cur × List Cur)
  | [] => none
  | c :: cs =>
    match extractMin cs with
    | none => some (c, [])
    | some (m, rest) =>
      if curLess m c then some (m, c :: rest) else some (c, cs)

/-- Advance a cursor: `btCursor.Next()` / `iter.Next()` /
`keysCursor.NextNoDup()` followed by the prefix check; a db cursor
recomputes `endTxNum = step * stepSize` and, under `haveRamUpdates`,
errors when `endTxNum >= sd.txNum`; ram/file cursors keep their
endTxNum. -/
def advanceCur (env : MergeEnv) (c : Cur) : Except String (Option Cur) :=
  match c.rest with
  | [] => .ok none
  | e :: rs =>
    if isPfx env.pfx e.key then
      match c.kind with
      | .db =>
        let endTxNum := e.num * env.stepSize
        if env.haveRam ∧ env.txNum ≤ endTxNum then
          .error "ram must be ahead of db"
        else
          .ok
            (some
              { kind := .db, key := e.key, val := e.val,
                endTxNum := endTxNum, rest := rs })
      | _ => .ok (some { c with key := e.key, val := e.val, rest := rs })
    else .ok none

/-- A hot-tier keys-table row joined with its latest value: the key, the
numeric step of the first (most recent) dupsort entry, and the value
stored under `key ‖ invertedStep` in the values table. -/
structure DbRow where
  key : Bytes
  step : Nat
  val : Bytes
  deriving DecidableEq, Repr

def dbRowsToEntries (rows : List DbRow) : List MEntry :=
  rows.map fun r => { key := r.key, val := r.val, num := r.step }

/-- `keysCursor.Seek(prefix)` and the initial db-cursor push: the first
row at or after the prefix, the prefix check, the endTxNum computation
with the `ram ahead of db` check. -/
def initDbCur (env : MergeEnv) (rows : List DbRow) :
    Except String (Option Cur) :=
  match rows.dropWhile fun r => bytesLt r.key env.pfx with
  | [] => .ok none
  | r :: rs =>
    if isPfx env.pfx r.key then
      let endTxNum := r.step * env.stepSize
      if env.haveRam ∧ env.txNum ≤ endTxNum then
        .error "ram must be ahead of db"
      else
        .ok
          (some
            { kind := .db, key := r.key, val := r.val,
              endTxNum := endTxNum, rest := dbRowsToEntries rs })
    else .ok none

/-- `sd.storage.Iter().Seek(prefix)` and the initial ram-cursor push: the
cursor carries `endTxNum = sd.txNum`. -/
def initRamCur (env : MergeEnv) (ram : List (Bytes × Bytes)) : Option Cur :=
  match ram.dropWhile fun p => bytesLt p.1 env.pfx with
  | [] => none
  | (k, v) :: rs =>
    if k.length > 0 ∧ isPfx env.pfx k then
      some
        { kind := .ram, key := k, val := v, endTxNum := env.txNum,
          rest := rs.map fun p => { key := p.1, val := p.2, num := 0 } }
    else none

/-- One immutable file: its `endTxNum` bound and its sorted
`(key, value)` rows. -/
structure FileTier where
  endTxNum : Nat
  rows : List (Bytes × Bytes)
  deriving DecidableEq, Repr

/-- `bindex.Seek(prefix)` and the initial file-cursor push: the cursor
carries `endTxNum = item.endTxNum - 1` (`.kv` files cover `[from, to)`). -/
def initFileCur (env : MergeEnv) (f : FileTier) : Option Cur :=
  match f.rows.dropWhile fun p => bytesLt p.1 env.pfx with
  | [] => none
  | (k, v) :: rs =>
    if isPfx env.pfx k then
      some
        { kind := .file, key := k, val := v, endTxNum := f.endTxNum - 1,
          rest := rs.map fun p => { key := p.1, val := p.2, num := 0 } }
    else none

def curWeight (c : Cur) : Nat := 1 + c.rest.length

def heapWeight (h : List Cur) : Nat := (h.map curWeight).sum

/-- The inner loop: pop and advance every cursor whose key equals
`lastKey` (fuelled; `none` = fuel exhausted, ruled out by
`popGroupF_isSome`). -/
def popGroupF (env : MergeEnv) (lastKey : Bytes) :
    Nat → List Cur → Option (Except String (List Cur))
  | 0, _ => none
  | fuel + 1, heap =>
    match extractMin heap with
    | none => some (.ok heap)
    | some (top, rest) =>
      if top.key = lastKey then
        match advanceCur env top with
        | .error e => some (.error e)
        | .ok none => popGroupF env lastKey fuel rest
        | .ok (some c) => popGroupF env lastKey fuel (c :: rest)
      else some (.ok heap)

/-- The outer loop: read `(lastKey, lastVal)` from the heap top, advance
the whole key group, then emit unless the value is empty (fuelled). -/
def mergeRunF (env : MergeEnv) :
    Nat → List Cur → List (Bytes × Bytes) →
      Option (Except String (List (Bytes × Bytes)))
  | 0, _, _ => none
  | fuel + 1, heap, acc =>
    match extractMin heap with
    | none => some (.ok acc.reverse)
    | some (top, _) =>
      match popGroupF env top.key (fuel + 1) heap with
      | none => none
      | some (.error e) => some (.error e)
      | some (.ok heap2) =>
        let acc2 := if top.val.length > 0 then (top.key, top.val) :: acc
          else acc
        mergeRunF env fuel heap2 acc2

/-- The merge loop with sufficient fuel (`heapWeight + 1`; sufficiency is
`mergeRunF_isSome`, so the default branch is dead). -/
def mergeRun (env : MergeEnv) (heap : List Cur) (acc : List (Bytes × Bytes)) :
    Except String (List (Bytes × Bytes)) :=
  (mergeRunF env (heapWeight heap + 1) heap acc).getD (.ok acc.reverse)

def optCurList : Option Cur → List Cur
  | none => []
  | some c => [c]

/-- `DomainContext.IteratePrefix` — db cursor plus one cursor per file; no
ram cursor and no `ram ahead of db` check (`haveRam := false`). -/
def iteratePfx (pfx : Bytes) (stepSize : Nat) (dbRows : List DbRow)
    (files : List FileTier) : Except String (List (Bytes × Bytes)) :=
  let env : MergeEnv :=
    { pfx := pfx, haveRam := false, txNum := 0, stepSize := stepSize }
  match initDbCur env dbRows with
  | .error e => .error e
  | .ok od =>
    mergeRun env (optCurList od ++ files.filterMap (initFileCur env)) []

/-- `SharedDomains.IterateStoragePrefix` — ram cursor, db cursor and one
cursor per storage file; `haveRamUpdates = (sd.storage.Len() > 0)`. -/
def iterateStoragePfx (pfx : Bytes) (txNum stepSize : Nat)
    (ram : List (Bytes × Bytes)) (dbRows : List DbRow)
    (files : List FileTier) : Except String (List (Bytes × Bytes)) :=
  let env : MergeEnv :=
    { pfx := pfx, haveRam := !ram.isEmpty, txNum := txNum,
      stepSize := stepSize }
  match initDbCur env dbRows with
  | .error e => .error e
  | .ok od =>
    mergeRun env
      (optCurList (initRamCur env ram) ++ optCurList od
        ++ files.filterMap (initFileCur env)) []

/-- The storage-relevant `SharedDomains` state for `DomainDelPrefix`: the
ordered in-memory map, the current txNum, the hot tier, the storage
files, and the buffered-writer / commitment-context traces. -/
structure SDStorage where
  ram : List (Bytes × Bytes)
  txNum : Nat
  stepSize : Nat
  dbRows : List DbRow
  files : List FileTier
  writerOps : List (Bytes × Bytes)
  touched : List Bytes
  deriving DecidableEq, Repr

/-- `sd.storage.Set` — ordered-map insert or replace. -/
def ramSet (k v : Bytes) : List (Bytes × Bytes) → List (Bytes × Bytes)
  | [] => [(k, v)]
  | (y, w) :: rest =>
    if bytesLt y k then (y, w) :: ramSet k v rest
    else if y = k then (k, v) :: rest
    else (k, v) :: (y, w) :: rest

/-- `SharedDomains.IterateStoragePrefix` on the bundled state. -/
def iterateStoragePfxSD (sd : SDStorage) (pfx : Bytes) :
    Except String (List (Bytes × Bytes)) :=
  iterateStoragePfx pfx sd.txNum sd.stepSize sd.ram sd.dbRows sd.files

/-- `SharedDomains.delAccountStorage` (reached from `DomainDel` with a
known non-nil previous value): commitment touch, tombstone in the ram
map, `DeleteWithPrev` in the buffered writer. -/
def delAccountStorageSD (sd : SDStorage) (k prev : Bytes) : SDStorage :=
  { sd with
      ram := ramSet k [] sd.ram,
      touched := sd.touched ++ [k],
      writerOps := sd.writerOps ++ [(k, prev)] }

/-- `SharedDomains.DomainDelPrefix` on the storage domain: collect every
visited `(k, v)` pair, then `DomainDel` each (the visited value is the
non-nil previous value). -/
def domainDelPfx (sd : SDStorage) (pfx : Bytes) : Except String SDStorage :=
  match iterateStoragePfxSD sd pfx with
  | .error e => .error e
  | .ok tombs =>
    .ok (tombs.foldl (fun s p => delAccountStorageSD s p.1 p.2) sd)

/-- The `(key, value, endTxNum)` triples the hot tier contributes under a
prefix: one per keys-table row whose key has the prefix, at
`step * stepSize`. -/
def dbPfxEntries (pfx : Bytes) (stepSize : Nat) (rows : List DbRow) :
    List (Bytes × Bytes × Nat) :=
  (rows.filter fun r => isPfx pfx r.key).map
    fun r => (r.key, r.val, r.step * stepSize)

/-- The triples one file contributes under a prefix, at its fixed
`endTxNum - 1`. -/
def filePfxEntries (pfx : Bytes) (f : FileTier) : List (Bytes × Bytes × Nat) :=
  (f.rows.filter fun p => isPfx pfx p.1).map
    fun p => (p.1, p.2, f.endTxNum - 1)

def filesPfxEntries (pfx : Bytes) (files : List FileTier) :
    List (Bytes × Bytes × Nat) :=
  (files.map (filePfxEntries pfx)).flatten

/-- The triples the in-memory map contributes under a prefix, at
`sd.txNum`. -/
def ramPfxEntries (pfx : Bytes) (txNum : Nat) (ram : List (Bytes × Bytes)) :
    List (Bytes × Bytes × Nat) :=
  (ram.filter fun p => isPfx pfx p.1).map fun p => (p.1, p.2, txNum)

/-- A hot-tier row under the prefix whose recomputed
`endTxNum = step * stepSize` is not strictly behind `txNum`: the rows the
`ram must be ahead of db` check rejects. -/
def dbBadRow (pfx : Bytes) (txNum stepSize : Nat) (rows : List DbRow) :
    Prop :=
  ∃ r ∈ rows, isPfx pfx r.key = true ∧ txNum ≤ r.step * stepSize

/-! ### Order and prefix facts used by the merge proofs -/

theorem bytesLt_false_iff (a b : Bytes) :
    bytesLt a b = false ↔ bytesCmp a b ≠ .lt := by
  unfold bytesLt
  cases bytesCmp a b <;> decide

theorem isPfx_not_lt {p k : Bytes} (h : isPfx p k = true) :
    bytesLt k p = false := by
  induction p generalizing k with
  | nil =>
    cases k with
    | nil => rfl
    | cons x xs => rfl
  | cons a as ih =>
    cases k with
    | nil => simp [isPfx, List.isPrefixOf] at h
    | cons x xs =>
      simp only [isPfx, List.isPrefixOf, Bool.and_eq_true, beq_iff_eq] at h
      obtain ⟨hax, hpfx⟩ := h
      subst hax
      have hxs := ih (k := xs) (by simpa [isPfx] using hpfx)
      rw [bytesLt_false_iff] at hxs ⊢
      simp only [bytesCmp, lt_irrefl, if_false]
      simpa using hxs

theorem isPfx_refl (p : Bytes) : isPfx p p = true := by
  unfold isPfx
  induction p with
  | nil => rfl
  | cons a as ih => simp [List.isPrefixOf, ih]

/-- Keys with a common prefix form an interval of the lexicographic
order: if `p ≤ b ≤ c` and `p` is a prefix of `c`, it is a prefix of
`b`. -/
theorem isPfx_between {p b c : Bytes} (hpb : bytesLt b p = false)
    (hbc : bytesLt c b = false) (hc : isPfx p c = true) :
    isPfx p b = true := by
  induction p generalizing b c with
  | nil => simp [isPfx, List.isPrefixOf]
  | cons a as ih =>
    cases c with
    | nil => simp [isPfx, List.isPrefixOf] at hc
    | cons z zs =>
      simp only [isPfx, List.isPrefixOf, Bool.and_eq_true, beq_iff_eq] at hc
      obtain ⟨haz, hzs⟩ := hc
      subst haz
      cases b with
      | nil =>
        rw [bytesLt_false_iff] at hpb
        exact absurd rfl hpb
      | cons y ys =>
        rw [bytesLt_false_iff] at hpb hbc
        simp only [bytesCmp] at hpb hbc
        by_cases hya : y < a
        · exact absurd (by simp [hya]) hpb
        · by_cases hay : a < y
          · have : ¬ y < a := hya
            exact absurd (by simp [hay]) hbc
          · have hyaeq : y = a := by omega
            subst hyaeq
            simp only [lt_irrefl, if_false] at hpb hbc
            have hr := ih (b := ys) (c := zs)
              ((bytesLt_false_iff _ _).mpr (by simpa using hpb))
              ((bytesLt_false_iff _ _).mpr (by simpa using hbc))
              (by simpa [isPfx] using hzs)
            simp only [isPfx, List.isPrefixOf, Bool.and_eq_true]
            exact ⟨by simp, by simpa [isPfx] using hr⟩

theorem curLess_iff (a b : Cur) :
    curLess a b = true ↔
      (bytesLt a.key b.key = true ∨
        (a.key = b.key ∧ b.endTxNum < a.endTxNum)) := by
  unfold curLess
  rcases h : bytesCmp a.key b.key with _ | _ | _
  · have hblt : bytesLt a.key b.key = true := by
      rw [bytesLt_iff]
      exact h
    simp [hblt]
  · have he := (bytesCmp_eq_iff _ _).mp h
    have hlt : bytesLt a.key b.key = false := by
      rw [bytesLt_false_iff, h]
      simp
    simp only [hlt]
    simp [he]
  · have hlt : bytesLt a.key b.key = false := by
      rw [bytesLt_false_iff, h]
      simp
    have hne : a.key ≠ b.key := by
      intro he
      rw [(bytesCmp_eq_iff _ _).mpr he] at h
      exact Ordering.noConfusion h
    simp [hlt, hne]

theorem curLess_false_iff (a b : Cur) :
    curLess a b = false ↔
      (bytesLt a.key b.key = false ∧
        (a.key = b.key → b.endTxNum ≥ a.endTxNum)) := by
  rw [← Bool.not_eq_true, curLess_iff]
  constructor
  · intro h
    push_neg at h
    obtain ⟨h1, h2⟩ := h
    exact ⟨by simpa using h1, fun he => by have := h2 he; omega⟩
  · intro ⟨h1, h2⟩
    push_neg
    exact ⟨by simpa using h1, fun he => by have := h2 he; omega⟩

theorem curLess_irrefl (a : Cur) : curLess a a = false := by
  rw [curLess_false_iff]
  exact ⟨bytesLt_irrefl _, fun _ => le_refl _⟩

theorem curLess_false_trans {a b c : Cur} (hab : curLess a b = false)
    (hbc : curLess b c = false) : curLess a c = false := by
  rw [curLess_false_iff] at hab hbc ⊢
  obtain ⟨hab1, hab2⟩ := hab
  obtain ⟨hbc1, hbc2⟩ := hbc
  constructor
  · cases hac : bytesLt a.key c.key
    · rfl
    · exfalso
      rcases bytesLt_total b.key a.key with h | h | h
      · have := bytesLt_trans h hac
        rw [hbc1] at this
        exact Bool.noConfusion this
      · rw [h] at hbc1
        rw [hbc1] at hac
        exact Bool.noConfusion hac
      · rw [hab1] at h
        exact Bool.noConfusion h
  · intro he
    have hba : b.key = a.key := by
      rcases bytesLt_total a.key b.key with h | h | h
      · rw [hab1] at h
        exact Bool.noConfusion h
      · exact h.symm
      · rcases bytesLt_total b.key c.key with h2 | h2 | h2
        · rw [hbc1] at h2
          exact Bool.noConfusion h2
        · rw [h2, ← he] at h
          rw [bytesLt_irrefl] at h
          exact Bool.noConfusion h
        · have := bytesLt_trans h2 (he ▸ h)
          rw [bytesLt_irrefl] at this
          exact Bool.noConfusion this
    have h1 := hab2 hba.symm
    have h2 := hbc2 (by rw [hba, he])
    omega

theorem extractMin_none {h : List Cur} : extractMin h = none ↔ h = [] := by
  cases h with
  | nil => simp [extractMin]
  | cons c cs =>
    rw [extractMin]
    constructor
    · intro hx
      split at hx
      · exact absurd hx (by simp)
      · split at hx <;> exact absurd hx (by simp)
    · intro hx
      exact absurd hx (by simp)

theorem extractMin_perm {h : List Cur} {m : Cur} {r : List Cur}
    (hx : extractMin h = some (m, r)) : h.Perm (m :: r) := by
  induction h generalizing m r with
  | nil => simp [extractMin] at hx
  | cons c cs ih =>
    rw [extractMin] at hx
    split at hx
    · rename_i heq
      obtain ⟨h1, h2⟩ : c = m ∧ [] = r := by simpa using hx
      subst h1
      subst h2
      have : cs = [] := extractMin_none.mp heq
      subst this
      exact List.Perm.refl _
    · rename_i m2 rest2 heq
      split at hx
      · obtain ⟨h1, h2⟩ : m2 = m ∧ c :: rest2 = r := by simpa using hx
        subst h1
        subst h2
        exact (List.Perm.cons c (ih heq)).trans (List.Perm.swap _ _ _)
      · obtain ⟨h1, h2⟩ : c = m ∧ cs = r := by simpa using hx
        subst h1
        subst h2
        exact List.Perm.refl _

theorem extractMin_mem {h : List Cur} {m : Cur} {r : List Cur}
    (hx : extractMin h = some (m, r)) : m ∈ h :=
  (extractMin_perm hx).mem_iff.mpr (by simp)

theorem extractMin_mem_of_rest {h : List Cur} {m x : Cur} {r : List Cur}
    (hx : extractMin h = some (m, r)) (hm : x ∈ r) : x ∈ h :=
  (extractMin_perm hx).mem_iff.mpr (List.mem_cons_of_mem _ hm)

theorem extractMin_min {h : List Cur} {m : Cur} {r : List Cur}
    (hx : extractMin h = some (m, r)) :
    ∀ x ∈ h, curLess x m = false := by
  induction h generalizing m r with
  | nil => simp [extractMin] at hx
  | cons c cs ih =>
    rw [extractMin] at hx
    split at hx
    · rename_i heq
      obtain ⟨h1, h2⟩ : c = m ∧ [] = r := by simpa using hx
      subst h1
      have : cs = [] := extractMin_none.mp heq
      subst this
      intro x hxm
      have : x = c := by simpa using hxm
      subst this
      exact curLess_irrefl _
    · rename_i m2 rest2 heq
      split at hx
      · rename_i hlt
        obtain ⟨h1, h2⟩ : m2 = m ∧ c :: rest2 = r := by simpa using hx
        subst h1
        intro x hxm
        rcases List.mem_cons.mp hxm with hxc | hxcs
        · subst hxc
          cases hq : curLess x m2
          · rfl
          · rw [curLess_iff] at hlt hq
            exfalso
            rcases hlt with h1 | ⟨h1, h2⟩ <;> rcases hq with h3 | ⟨h3, h4⟩
            · have := bytesLt_trans h1 h3
              rw [bytesLt_irrefl] at this
              exact Bool.noConfusion this
            · rw [h3] at h1
              rw [bytesLt_irrefl] at h1
              exact Bool.noConfusion h1
            · rw [h1] at h3
              rw [bytesLt_irrefl] at h3
              exact Bool.noConfusion h3
            · omega
        · exact ih heq x hxcs
      · rename_i hlt
        obtain ⟨h1, h2⟩ : c = m ∧ cs = r := by simpa using hx
        subst h1
        intro x hxm
        rcases List.mem_cons.mp hxm with hxc | hxcs
        · subst hxc
          exact curLess_irrefl _
        · have hxm2 := ih heq x hxcs
          have hm2m : curLess m2 c = false := by
            cases hq : curLess m2 c
            · rfl
            · exact absurd hq (by simp [hlt])
          exact curLess_false_trans hxm2 hm2m

theorem extractMin_weight {h : List Cur} {m : Cur} {r : List Cur}
    (hx : extractMin h = some (m, r)) :
    heapWeight h = curWeight m + heapWeight r := by
  have hp := extractMin_perm hx
  unfold heapWeight
  rw [(hp.map curWeight).sum_eq]
  rfl

/-! ### Cursor entries, invariants, and `advanceCur` facts -/

/-- The effective endTxNum a pending row will carry once the cursor
reaches it: recomputed from the stored step for db cursors, fixed for
ram/file cursors. -/
def entryETN (env : MergeEnv) (c : Cur) (e : MEntry) : Nat :=
  match c.kind with
  | .db => e.num * env.stepSize
  | _ => c.endTxNum

/-- The cursor state after a successful advance onto row `e` with
remaining rows `rs`. -/
def advTarget (env : MergeEnv) (c : Cur) (e : MEntry) (rs : List MEntry) :
    Cur :=
  { kind := c.kind, key := e.key, val := e.val,
    endTxNum := entryETN env c e, rest := rs }

/-- The `(key, value, endTxNum)` triples a cursor can still contribute:
its current position plus the prefix-run of its remaining rows (advancing
stops at the first row without the prefix). -/
def curEntries (env : MergeEnv) (c : Cur) : List (Bytes × Bytes × Nat) :=
  (c.key, c.val, c.endTxNum) ::
    (c.rest.takeWhile fun e => isPfx env.pfx e.key).map
      fun e => (e.key, e.val, entryETN env c e)

def heapEntries (env : MergeEnv) (h : List Cur) : List (Bytes × Bytes × Nat) :=
  (h.map (curEntries env)).flatten

/-- Strictly ascending keys: the cursor's current key, then its pending
rows. -/
def WFCur (c : Cur) : Prop :=
  (c.key :: c.rest.map MEntry.key).Pairwise fun a b => bytesLt a b = true

/-- Heap invariant for one cursor: sorted, and positioned inside the
prefix. -/
def CurInv (env : MergeEnv) (c : Cur) : Prop :=
  WFCur c ∧ isPfx env.pfx c.key = true

/-- A db cursor whose remaining prefix-run holds a row violating
`ram ahead of db` (`endTxNum = step * stepSize ≥ txNum` under
`haveRamUpdates`): advancing onto that row errors. -/
def curHasBadDb (env : MergeEnv) (c : Cur) : Prop :=
  c.kind = .db ∧ ∃ en ∈ c.rest.takeWhile fun x => isPfx env.pfx x.key,
    env.haveRam = true ∧ env.txNum ≤ en.num * env.stepSize

theorem advanceCur_cases (env : MergeEnv) (c : Cur) :
    (c.rest = [] ∧ advanceCur env c = .ok none) ∨
    (∃ e rs, c.rest = e :: rs ∧ isPfx env.pfx e.key = false ∧
      advanceCur env c = .ok none) ∨
    (∃ e rs, c.rest = e :: rs ∧ isPfx env.pfx e.key = true ∧ c.kind = .db ∧
      env.haveRam = true ∧ env.txNum ≤ e.num * env.stepSize ∧
      advanceCur env c = .error "ram must be ahead of db") ∨
    (∃ e rs, c.rest = e :: rs ∧ isPfx env.pfx e.key = true ∧
      ¬(c.kind = .db ∧ env.haveRam = true ∧
        env.txNum ≤ e.num * env.stepSize) ∧
      advanceCur env c = .ok (some (advTarget env c e rs))) := by
  rcases hr : c.rest with _ | ⟨e, rs⟩
  · left
    refine ⟨rfl, ?_⟩
    unfold advanceCur
    rw [hr]
  · by_cases hp : isPfx env.pfx e.key = true
    · rcases hk : c.kind with _ | _ | _
      · right; right; right
        refine ⟨e, rs, rfl, hp, by simp [hk], ?_⟩
        unfold advanceCur
        rw [hr]
        simp only [hp, if_true]
        rw [hk]
        simp [advTarget, entryETN, hk]
      · by_cases hbad : env.haveRam = true ∧ env.txNum ≤ e.num * env.stepSize
        · right; right; left
          refine ⟨e, rs, rfl, hp, rfl, hbad.1, hbad.2, ?_⟩
          unfold advanceCur
          rw [hr]
          simp only [hp, if_true]
          rw [hk]
          rw [if_pos hbad]
        · right; right; right
          refine ⟨e, rs, rfl, hp, by simpa using hbad, ?_⟩
          unfold advanceCur
          rw [hr]
          simp only [hp, if_true]
          rw [hk]
          rw [if_neg hbad]
          simp [advTarget, entryETN, hk]
      · right; right; right
        refine ⟨e, rs, rfl, hp, by simp [hk], ?_⟩
        unfold advanceCur
        rw [hr]
        simp only [hp, if_true]
        rw [hk]
        simp [advTarget, entryETN, hk]
    · right; left
      refine ⟨e, rs, rfl, by simpa using hp, ?_⟩
      unfold advanceCur
      rw [hr]
      simp only [if_neg hp]

theorem advanceCur_ok_some {env : MergeEnv} {c c2 : Cur}
    (h : advanceCur env c = .ok (some c2)) :
    ∃ e rs, c.rest = e :: rs ∧ isPfx env.pfx e.key = true ∧
      ¬(c.kind = .db ∧ env.haveRam = true ∧
        env.txNum ≤ e.num * env.stepSize) ∧
      c2 = advTarget env c e rs := by
  rcases advanceCur_cases env c with ⟨_, ha⟩ | ⟨e, rs, _, _, ha⟩ |
    ⟨e, rs, _, _, _, _, _, ha⟩ | ⟨e, rs, h1, h2, h3, ha⟩
  · rw [h] at ha
    exact absurd ha (by simp)
  · rw [h] at ha
    exact absurd ha (by simp)
  · rw [h] at ha
    exact absurd ha (by simp)
  · rw [h] at ha
    have h4 : c2 = advTarget env c e rs := by simpa using ha
    exact ⟨e, rs, h1, h2, h3, h4⟩

theorem advanceCur_ok_none {env : MergeEnv} {c : Cur}
    (h : advanceCur env c = .ok none) :
    c.rest = [] ∨ ∃ e rs, c.rest = e :: rs ∧ isPfx env.pfx e.key = false := by
  rcases advanceCur_cases env c with ⟨h1, ha⟩ | ⟨e, rs, h1, h2, ha⟩ |
    ⟨e, rs, _, _, _, _, _, ha⟩ | ⟨e, rs, h1, h2, h3, ha⟩
  · exact Or.inl h1
  · exact Or.inr ⟨e, rs, h1, h2⟩
  · rw [h] at ha
    exact absurd ha (by simp)
  · rw [h] at ha
    exact absurd ha (by simp)

theorem advanceCur_error_inv {env : MergeEnv} {c : Cur} {msg : String}
    (h : advanceCur env c = .error msg) :
    ∃ en rs, c.rest = en :: rs ∧ isPfx env.pfx en.key = true ∧
      c.kind = .db ∧ env.haveRam = true ∧
      env.txNum ≤ en.num * env.stepSize := by
  rcases advanceCur_cases env c with ⟨_, ha⟩ | ⟨e, rs, _, _, ha⟩ |
    ⟨e, rs, h1, h2, h3, h4, h5, ha⟩ | ⟨e, rs, _, _, _, ha⟩
  · rw [h] at ha
    exact absurd ha (by simp)
  · rw [h] at ha
    exact absurd ha (by simp)
  · exact ⟨e, rs, h1, h2, h3, h4, h5⟩
  · rw [h] at ha
    exact absurd ha (by simp)

theorem advanceCur_weight {env : MergeEnv} {c c2 : Cur}
    (h : advanceCur env c = .ok (some c2)) : curWeight c2 < curWeight c := by
  obtain ⟨e, rs, h1, _, _, h4⟩ := advanceCur_ok_some h
  subst h4
  unfold curWeight advTarget
  rw [h1]
  simp

theorem entryETN_advTarget (env : MergeEnv) (c : Cur) (e : MEntry)
    (rs : List MEntry) (x : MEntry) :
    entryETN env (advTarget env c e rs) x = entryETN env c x := by
  rcases hk : c.kind with _ | _ | _ <;> simp [entryETN, advTarget, hk]

theorem advanceCur_entries {env : MergeEnv} {c c2 : Cur}
    (h : advanceCur env c = .ok (some c2)) :
    curEntries env c = (c.key, c.val, c.endTxNum) :: curEntries env c2 := by
  obtain ⟨e, rs, h1, h2, _, h4⟩ := advanceCur_ok_some h
  subst h4
  unfold curEntries
  rw [h1]
  simp only [List.takeWhile_cons, h2, if_true, List.map_cons,
    entryETN_advTarget]
  simp [advTarget, entryETN]

theorem advanceCur_none_entries {env : MergeEnv} {c : Cur}
    (h : advanceCur env c = .ok none) :
    curEntries env c = [(c.key, c.val, c.endTxNum)] := by
  unfold curEntries
  rcases advanceCur_ok_none h with h1 | ⟨e, rs, h1, h2⟩
  · rw [h1]
    rfl
  · rw [h1]
    simp [List.takeWhile_cons, h2]

theorem advanceCur_WF {env : MergeEnv} {c c2 : Cur} (hWF : WFCur c)
    (h : advanceCur env c = .ok (some c2)) :
    WFCur c2 ∧ bytesLt c.key c2.key = true := by
  obtain ⟨e, rs, h1, _, _, h4⟩ := advanceCur_ok_some h
  subst h4
  unfold WFCur at hWF ⊢
  rw [h1] at hWF
  simp only [List.map_cons] at hWF
  constructor
  · exact hWF.of_cons
  · exact (List.pairwise_cons.mp hWF).1 e.key (by simp [advTarget])

theorem advanceCur_pfx {env : MergeEnv} {c c2 : Cur}
    (h : advanceCur env c = .ok (some c2)) : isPfx env.pfx c2.key = true := by
  obtain ⟨e, rs, _, h2, _, h4⟩ := advanceCur_ok_some h
  subst h4
  exact h2

theorem advanceCur_kind {env : MergeEnv} {c c2 : Cur}
    (h : advanceCur env c = .ok (some c2)) : c2.kind = c.kind := by
  obtain ⟨e, rs, _, _, _, h4⟩ := advanceCur_ok_some h
  subst h4
  rfl

theorem advanceCur_bad_iff {env : MergeEnv} {c c2 : Cur}
    (h : advanceCur env c = .ok (some c2)) :
    (curHasBadDb env c ↔ curHasBadDb env c2) := by
  obtain ⟨e, rs, h1, h2, h3, h4⟩ := advanceCur_ok_some h
  subst h4
  unfold curHasBadDb
  rw [h1]
  simp only [List.takeWhile_cons, h2, if_true]
  constructor
  · rintro ⟨hk, en, hen, hprop⟩
    rcases List.mem_cons.mp hen with he | he
    · subst he
      exact absurd ⟨hk, hprop.1, hprop.2⟩ h3
    · exact ⟨by simpa [advTarget] using hk, en, he, hprop⟩
  · rintro ⟨hk, en, hen, hprop⟩
    exact ⟨by simpa [advTarget] using hk, en, List.mem_cons_of_mem _ hen,
      hprop⟩

theorem advanceCur_none_not_bad {env : MergeEnv} {c : Cur}
    (h : advanceCur env c = .ok none) : ¬ curHasBadDb env c := by
  rintro ⟨hk, en, hen, hprop⟩
  rcases advanceCur_ok_none h with h1 | ⟨e, rs, h1, h2⟩
  · rw [h1] at hen
    simp at hen
  · rw [h1] at hen
    simp [List.takeWhile_cons, h2] at hen

theorem advanceCur_error_bad {env : MergeEnv} {c : Cur} {msg : String}
    (h : advanceCur env c = .error msg) : curHasBadDb env c := by
  obtain ⟨en, rs, h1, h2, h3, h4, h5⟩ := advanceCur_error_inv h
  refine ⟨h3, en, ?_, h4, h5⟩
  rw [h1]
  simp [List.takeWhile_cons, h2]

/-! ### `popGroupF` facts -/

theorem mem_heapEntries {env : MergeEnv} {h : List Cur}
    {kv : Bytes × Bytes × Nat} :
    kv ∈ heapEntries env h ↔ ∃ c ∈ h, kv ∈ curEntries env c := by
  unfold heapEntries
  rw [List.mem_flatten]
  constructor
  · rintro ⟨l, hl, hkv⟩
    obtain ⟨c, hc, hce⟩ := List.mem_map.mp hl
    exact ⟨c, hc, hce ▸ hkv⟩
  · rintro ⟨c, hc, hkv⟩
    exact ⟨curEntries env c, List.mem_map.mpr ⟨c, hc, rfl⟩, hkv⟩

theorem popGroupF_isSome {env : MergeEnv} {lastKey : Bytes} :
    ∀ {fuel : Nat} {heap : List Cur}, heapWeight heap < fuel →
      (popGroupF env lastKey fuel heap).isSome := by
  intro fuel
  induction fuel with
  | zero => intro heap hw; omega
  | succ n ih =>
    intro heap hw
    rw [popGroupF]
    rcases hx : extractMin heap with _ | ⟨top, rest⟩
    · simp
    · dsimp only
      have hwx := extractMin_weight hx
      have htw : 1 ≤ curWeight top := by unfold curWeight; omega
      by_cases hk : top.key = lastKey
      · rw [if_pos hk]
        rcases ha : advanceCur env top with msg | oc
        · simp
        · rcases oc with _ | c2
          · exact ih (by omega)
          · have hcw := advanceCur_weight ha
            have hlt : heapWeight (c2 :: rest) < n := by
              unfold heapWeight at *
              simp only [List.map_cons, List.sum_cons] at *
              omega
            exact ih hlt
      · rw [if_neg hk]
        simp

theorem heapWeight_cons (c : Cur) (h : List Cur) :
    heapWeight (c :: h) = curWeight c + heapWeight h := by
  unfold heapWeight
  simp

theorem popGroupF_weight_le {env : MergeEnv} {lastKey : Bytes} :
    ∀ {fuel : Nat} {heap h2 : List Cur},
      popGroupF env lastKey fuel heap = some (.ok h2) →
      heapWeight h2 ≤ heapWeight heap := by
  intro fuel
  induction fuel with
  | zero => intro heap h2 h; simp [popGroupF] at h
  | succ n ih =>
    intro heap h2 h
    rw [popGroupF] at h
    rcases hx : extractMin heap with _ | ⟨top, rest⟩
    · rw [hx] at h
      have he : heap = h2 := by simpa using h
      rw [he]
    · rw [hx] at h
      dsimp only at h
      have hwx := extractMin_weight hx
      by_cases hk : top.key = lastKey
      · rw [if_pos hk] at h
        rcases ha : advanceCur env top with msg | oc
        · rw [ha] at h
          exact absurd h (by simp)
        · rcases oc with _ | c2
          · rw [ha] at h
            have hih := ih h
            have htw : 1 ≤ curWeight top := by unfold curWeight; omega
            omega
          · rw [ha] at h
            have hih := ih h
            have hcw := advanceCur_weight ha
            rw [heapWeight_cons] at hih
            omega
      · rw [if_neg hk] at h
        have he : heap = h2 := by simpa using h
        rw [he]

theorem popGroupF_weight_lt {env : MergeEnv} {lastKey : Bytes}
    {fuel : Nat} {heap h2 : List Cur} {top : Cur} {rest : List Cur}
    (hx : extractMin heap = some (top, rest)) (hk : top.key = lastKey)
    (h : popGroupF env lastKey fuel heap = some (.ok h2)) :
    heapWeight h2 < heapWeight heap := by
  rcases fuel with _ | n
  · simp [popGroupF] at h
  · rw [popGroupF] at h
    rw [hx] at h
    dsimp only at h
    rw [if_pos hk] at h
    have hwx := extractMin_weight hx
    have htw : 1 ≤ curWeight top := by unfold curWeight; omega
    rcases ha : advanceCur env top with msg | oc
    · rw [ha] at h
      exact absurd h (by simp)
    · rcases oc with _ | c2
      · rw [ha] at h
        have hih := popGroupF_weight_le h
        omega
      · rw [ha] at h
        have hih := popGroupF_weight_le h
        have hcw := advanceCur_weight ha
        rw [heapWeight_cons] at hih
        omega

theorem popGroupF_error_bad {env : MergeEnv} {lastKey : Bytes} :
    ∀ {fuel : Nat} {heap : List Cur} {msg : String},
      popGroupF env lastKey fuel heap = some (.error msg) →
      ∃ c ∈ heap, curHasBadDb env c := by
  intro fuel
  induction fuel with
  | zero => intro heap msg h; simp [popGroupF] at h
  | succ n ih =>
    intro heap msg h
    rw [popGroupF] at h
    rcases hx : extractMin heap with _ | ⟨top, rest⟩
    · rw [hx] at h
      exact absurd h (by simp)
    · rw [hx] at h
      dsimp only at h
      by_cases hk : top.key = lastKey
      · rw [if_pos hk] at h
        rcases ha : advanceCur env top with m2 | oc
        · exact ⟨top, extractMin_mem hx, advanceCur_error_bad ha⟩
        · rcases oc with _ | c2
          · rw [ha] at h
            obtain ⟨c, hc, hbad⟩ := ih h
            exact ⟨c, extractMin_mem_of_rest hx hc, hbad⟩
          · rw [ha] at h
            obtain ⟨c, hc, hbad⟩ := ih h
            rcases List.mem_cons.mp hc with hcc | hcc
            · subst hcc
              exact ⟨top, extractMin_mem hx,
                (advanceCur_bad_iff ha).mpr hbad⟩
            · exact ⟨c, extractMin_mem_of_rest hx hcc, hbad⟩
      · rw [if_neg hk] at h
        exact absurd h (by simp)

theorem popGroupF_bad_iff {env : MergeEnv} {lastKey : Bytes} :
    ∀ {fuel : Nat} {heap h2 : List Cur},
      popGroupF env lastKey fuel heap = some (.ok h2) →
      ((∃ c ∈ heap, curHasBadDb env c) ↔ ∃ c ∈ h2, curHasBadDb env c) := by
  intro fuel
  induction fuel with
  | zero => intro heap h2 h; simp [popGroupF] at h
  | succ n ih =>
    intro heap h2 h
    rw [popGroupF] at h
    rcases hx : extractMin heap with _ | ⟨top, rest⟩
    · rw [hx] at h
      have : heap = h2 := by simpa using h
      rw [this]
    · rw [hx] at h
      dsimp only at h
      by_cases hk : top.key = lastKey
      · rw [if_pos hk] at h
        have hperm := extractMin_perm hx
        rcases ha : advanceCur env top with m2 | oc
        · rw [ha] at h
          exact absurd h (by simp)
        · rcases oc with _ | c2
          · rw [ha] at h
            rw [← ih h]
            constructor
            · rintro ⟨c, hc, hbad⟩
              rcases List.mem_cons.mp (hperm.mem_iff.mp hc) with hcc | hcc
              · subst hcc
                exact absurd hbad (advanceCur_none_not_bad ha)
              · exact ⟨c, hcc, hbad⟩
            · rintro ⟨c, hc, hbad⟩
              exact ⟨c, extractMin_mem_of_rest hx hc, hbad⟩
          · rw [ha] at h
            rw [← ih h]
            constructor
            · rintro ⟨c, hc, hbad⟩
              rcases List.mem_cons.mp (hperm.mem_iff.mp hc) with hcc | hcc
              · subst hcc
                exact ⟨c2, by simp, (advanceCur_bad_iff ha).mp hbad⟩
              · exact ⟨c, List.mem_cons_of_mem _ hcc, hbad⟩
            · rintro ⟨c, hc, hbad⟩
              rcases List.mem_cons.mp hc with hcc | hcc
              · subst hcc
                exact ⟨top, extractMin_mem hx,
                  (advanceCur_bad_iff ha).mpr hbad⟩
              · exact ⟨c, extractMin_mem_of_rest hx hcc, hbad⟩
      · rw [if_neg hk] at h
        have : heap = h2 := by simpa using h
        rw [this]

theorem popGroupF_inv {env : MergeEnv} {lastKey : Bytes} :
    ∀ {fuel : Nat} {heap h2 : List Cur},
      popGroupF env lastKey fuel heap = some (.ok h2) →
      (∀ c ∈ heap, CurInv env c) →
      (∀ c ∈ heap, bytesLt c.key lastKey = false) →
      ∀ c ∈ h2, CurInv env c ∧ bytesLt lastKey c.key = true := by
  intro fuel
  induction fuel with
  | zero => intro heap h2 h _ _; simp [popGroupF] at h
  | succ n ih =>
    intro heap h2 h hinv hge
    rw [popGroupF] at h
    rcases hx : extractMin heap with _ | ⟨top, rest⟩
    · rw [hx] at h
      have he : heap = h2 := by simpa using h
      subst he
      have : heap = [] := extractMin_none.mp hx
      subst this
      intro c hc
      cases hc
    · rw [hx] at h
      dsimp only at h
      by_cases hk : top.key = lastKey
      · rw [if_pos hk] at h
        rcases ha : advanceCur env top with msg | oc
        · rw [ha] at h
          exact absurd h (by simp)
        · rcases oc with _ | c2
          · rw [ha] at h
            exact ih h
              (fun c hc => hinv c (extractMin_mem_of_rest hx hc))
              (fun c hc => hge c (extractMin_mem_of_rest hx hc))
          · rw [ha] at h
            have htopinv := hinv top (extractMin_mem hx)
            have hadv := advanceCur_WF htopinv.1 ha
            refine ih h ?_ ?_
            · intro c hc
              rcases List.mem_cons.mp hc with hcc | hcc
              · subst hcc
                exact ⟨hadv.1, advanceCur_pfx ha⟩
              · exact hinv c (extractMin_mem_of_rest hx hcc)
            · intro c hc
              rcases List.mem_cons.mp hc with hcc | hcc
              · subst hcc
                have hlt : bytesLt lastKey c.key = true := hk ▸ hadv.2
                cases hq : bytesLt c.key lastKey
                · rfl
                · exact absurd hq (by simpa using bytesLt_asymm hlt)
              · exact hge c (extractMin_mem_of_rest hx hcc)
      · rw [if_neg hk] at h
        have he : heap = h2 := by simpa using h
        subst he
        have htopge : bytesLt top.key lastKey = false :=
          hge top (extractMin_mem hx)
        have htoplt : bytesLt lastKey top.key = true := by
          rcases bytesLt_total lastKey top.key with hq | hq | hq
          · exact hq
          · exact absurd hq.symm hk
          · rw [htopge] at hq
            exact Bool.noConfusion hq
        intro c hc
        refine ⟨hinv c hc, ?_⟩
        have hmin := extractMin_min hx c hc
        rw [curLess_false_iff] at hmin
        rcases bytesLt_total lastKey c.key with hq | hq | hq
        · exact hq
        · exfalso
          rw [← hq] at hmin
          rw [htoplt] at hmin
          exact Bool.noConfusion hmin.1
        · exfalso
          have := bytesLt_trans hq htoplt
          rw [hmin.1] at this
          exact Bool.noConfusion this

theorem popGroupF_entries {env : MergeEnv} {lastKey : Bytes} :
    ∀ {fuel : Nat} {heap h2 : List Cur},
      popGroupF env lastKey fuel heap = some (.ok h2) →
      ∀ kv : Bytes × Bytes × Nat, kv.1 ≠ lastKey →
        (kv ∈ heapEntries env heap ↔ kv ∈ heapEntries env h2) := by
  intro fuel
  induction fuel with
  | zero => intro heap h2 h; simp [popGroupF] at h
  | succ n ih =>
    intro heap h2 h kv hkv
    rw [popGroupF] at h
    rcases hx : extractMin heap with _ | ⟨top, rest⟩
    · rw [hx] at h
      have he : heap = h2 := by simpa using h
      rw [he]
    · rw [hx] at h
      dsimp only at h
      have hperm := extractMin_perm hx
      by_cases hk : top.key = lastKey
      · rw [if_pos hk] at h
        rcases ha : advanceCur env top with msg | oc
        · rw [ha] at h
          exact absurd h (by simp)
        · rcases oc with _ | c2
          · rw [ha] at h
            rw [← ih h kv hkv]
            rw [mem_heapEntries, mem_heapEntries]
            constructor
            · rintro ⟨c, hc, hkvc⟩
              rcases List.mem_cons.mp (hperm.mem_iff.mp hc) with hcc | hcc
              · subst hcc
                rw [advanceCur_none_entries ha] at hkvc
                have : kv.1 = c.key := by
                  have := List.mem_singleton.mp hkvc
                  rw [this]
                exact absurd (hk ▸ this) hkv
              · exact ⟨c, hcc, hkvc⟩
            · rintro ⟨c, hc, hkvc⟩
              exact ⟨c, extractMin_mem_of_rest hx hc, hkvc⟩
          · rw [ha] at h
            rw [← ih h kv hkv]
            rw [mem_heapEntries, mem_heapEntries]
            constructor
            · rintro ⟨c, hc, hkvc⟩
              rcases List.mem_cons.mp (hperm.mem_iff.mp hc) with hcc | hcc
              · subst hcc
                rw [advanceCur_entries ha] at hkvc
                rcases List.mem_cons.mp hkvc with hh | hh
                · have : kv.1 = c.key := by rw [hh]
                  exact absurd (hk ▸ this) hkv
                · exact ⟨c2, by simp, hh⟩
              · exact ⟨c, List.mem_cons_of_mem _ hcc, hkvc⟩
            · rintro ⟨c, hc, hkvc⟩
              rcases List.mem_cons.mp hc with hcc | hcc
              · subst hcc
                refine ⟨top, extractMin_mem hx, ?_⟩
                rw [advanceCur_entries ha]
                exact List.mem_cons_of_mem _ hkvc
              · exact ⟨c, extractMin_mem_of_rest hx hcc, hkvc⟩
      · rw [if_neg hk] at h
        have he : heap = h2 := by simpa using h
        rw [he]

/-! ### `mergeRunF` facts -/

theorem mergeRunF_isSome {env : MergeEnv} :
    ∀ {fuel : Nat} {heap : List Cur} {acc : List (Bytes × Bytes)},
      heapWeight heap < fuel → (mergeRunF env fuel heap acc).isSome := by
  intro fuel
  induction fuel with
  | zero => intro heap acc hw; omega
  | succ n ih =>
    intro heap acc hw
    rw [mergeRunF]
    rcases hx : extractMin heap with _ | ⟨top, rest⟩
    · simp
    · dsimp only
      have hps := @popGroupF_isSome env top.key (n + 1) heap hw
      rcases hp : popGroupF env top.key (n + 1) heap with _ | r
      · rw [hp] at hps
        exact absurd hps (by simp)
      · rcases r with msg | heap2
        · simp
        · have hlt := popGroupF_weight_lt hx rfl hp
          exact ih (by omega)

/-- `mergeRun` evaluates `mergeRunF` at sufficient fuel. -/
theorem mergeRun_eq {env : MergeEnv} {heap : List Cur}
    {acc : List (Bytes × Bytes)} :
    mergeRunF env (heapWeight heap + 1) heap acc
      = some (mergeRun env heap acc) := by
  have hs := @mergeRunF_isSome env (heapWeight heap + 1) heap acc
    (by omega)
  rcases hr : mergeRunF env (heapWeight heap + 1) heap acc with _ | r
  · rw [hr] at hs
    exact absurd hs (by simp)
  · unfold mergeRun
    rw [hr]
    rfl

theorem mergeRunF_error_bad {env : MergeEnv} :
    ∀ {fuel : Nat} {heap : List Cur} {acc : List (Bytes × Bytes)}
      {msg : String},
      mergeRunF env fuel heap acc = some (.error msg) →
      ∃ c ∈ heap, curHasBadDb env c := by
  intro fuel
  induction fuel with
  | zero => intro heap acc msg h; simp [mergeRunF] at h
  | succ n ih =>
    intro heap acc msg h
    rw [mergeRunF] at h
    rcases hx : extractMin heap with _ | ⟨top, rest⟩
    · rw [hx] at h
      exact absurd h (by simp)
    · rw [hx] at h
      dsimp only at h
      rcases hp : popGroupF env top.key (n + 1) heap with _ | r
      · rw [hp] at h
        exact absurd h (by simp)
      · rcases r with m2 | heap2
        · rw [hp] at h
          have : m2 = msg := by simpa using h
          subst this
          exact popGroupF_error_bad hp
        · rw [hp] at h
          obtain ⟨c, hc, hbad⟩ := ih h
          exact (popGroupF_bad_iff hp).mpr ⟨c, hc, hbad⟩

theorem mergeRunF_ok_no_bad {env : MergeEnv} :
    ∀ {fuel : Nat} {heap : List Cur} {acc out : List (Bytes × Bytes)},
      mergeRunF env fuel heap acc = some (.ok out) →
      ¬ ∃ c ∈ heap, curHasBadDb env c := by
  intro fuel
  induction fuel with
  | zero => intro heap acc out h; simp [mergeRunF] at h
  | succ n ih =>
    intro heap acc out h
    rw [mergeRunF] at h
    rcases hx : extractMin heap with _ | ⟨top, rest⟩
    · have he : heap = [] := extractMin_none.mp hx
      subst he
      rintro ⟨c, hc, _⟩
      cases hc
    · rw [hx] at h
      dsimp only at h
      rcases hp : popGroupF env top.key (n + 1) heap with _ | r
      · rw [hp] at h
        exact absurd h (by simp)
      · rcases r with m2 | heap2
        · rw [hp] at h
          exact absurd h (by simp)
        · rw [hp] at h
          intro hbad
          exact ih h ((popGroupF_bad_iff hp).mp hbad)

theorem mergeRunF_acc_sub {env : MergeEnv} :
    ∀ {fuel : Nat} {heap : List Cur} {acc out : List (Bytes × Bytes)},
      mergeRunF env fuel heap acc = some (.ok out) →
      ∀ a ∈ acc, a ∈ out := by
  intro fuel
  induction fuel with
  | zero => intro heap acc out h; simp [mergeRunF] at h
  | succ n ih =>
    intro heap acc out h a ha
    rw [mergeRunF] at h
    rcases hx : extractMin heap with _ | ⟨top, rest⟩
    · rw [hx] at h
      have : acc.reverse = out := by simpa using h
      rw [← this]
      simpa using ha
    · rw [hx] at h
      dsimp only at h
      rcases hp : popGroupF env top.key (n + 1) heap with _ | r
      · rw [hp] at h
        exact absurd h (by simp)
      · rcases r with m2 | heap2
        · rw [hp] at h
          exact absurd h (by simp)
        · rw [hp] at h
          refine ih h a ?_
          split
          · exact List.mem_cons_of_mem _ ha
          · exact ha

theorem curEntries_key {env : MergeEnv} {c : Cur} (hWF : WFCur c)
    {kv : Bytes × Bytes × Nat} (hkv : kv ∈ curEntries env c) :
    kv = (c.key, c.val, c.endTxNum) ∨ bytesLt c.key kv.1 = true := by
  unfold curEntries at hkv
  rcases List.mem_cons.mp hkv with h | h
  · exact Or.inl h
  · right
    obtain ⟨e, he, hee⟩ := List.mem_map.mp h
    have hek : e ∈ c.rest := (List.takeWhile_sublist _).subset he
    have hkey : bytesLt c.key e.key = true :=
      (List.pairwise_cons.mp hWF).1 e.key (List.mem_map.mpr ⟨e, hek, rfl⟩)
    rw [← hee]
    exact hkey

theorem extractMin_key_min {heap : List Cur} {top : Cur} {rest : List Cur}
    (hx : extractMin heap = some (top, rest)) :
    ∀ c ∈ heap, bytesLt c.key top.key = false :=
  fun c hc => ((curLess_false_iff _ _).mp (extractMin_min hx c hc)).1

theorem top_entry_mem {env : MergeEnv} {heap : List Cur} {top : Cur}
    {rest : List Cur} (hx : extractMin heap = some (top, rest)) :
    (top.key, top.val, top.endTxNum) ∈ heapEntries env heap :=
  mem_heapEntries.mpr ⟨top, extractMin_mem hx, by unfold curEntries; simp⟩

theorem top_max_at_key {env : MergeEnv} {heap : List Cur} {top : Cur}
    {rest : List Cur} (hinv : ∀ c ∈ heap, CurInv env c)
    (hx : extractMin heap = some (top, rest)) :
    ∀ v2 e2, (top.key, v2, e2) ∈ heapEntries env heap →
      e2 ≤ top.endTxNum := by
  intro v2 e2 hm
  obtain ⟨c, hc, hkc⟩ := mem_heapEntries.mp hm
  have hWF := (hinv c hc).1
  have hmin := extractMin_min hx c hc
  rw [curLess_false_iff] at hmin
  rcases curEntries_key hWF hkc with he | he
  · have h1 : top.key = c.key := congrArg Prod.fst he
    have h2 : e2 = c.endTxNum := congrArg (fun x => x.2.2) he
    have := hmin.2 h1.symm
    omega
  · exfalso
    have : bytesLt c.key top.key = true := he
    rw [hmin.1] at this
    exact Bool.noConfusion this

theorem entries_key_gt {env : MergeEnv} {h2 : List Cur} {lastKey : Bytes}
    (hinv2 : ∀ c ∈ h2, CurInv env c ∧ bytesLt lastKey c.key = true)
    {kv : Bytes × Bytes × Nat} (hkv : kv ∈ heapEntries env h2) :
    bytesLt lastKey kv.1 = true := by
  obtain ⟨c, hc, hkc⟩ := mem_heapEntries.mp hkv
  obtain ⟨⟨hWF, _⟩, hgt⟩ := hinv2 c hc
  rcases curEntries_key hWF hkc with he | he
  · have h1 : kv.1 = c.key := congrArg Prod.fst he
    rw [h1]
    exact hgt
  · exact bytesLt_trans hgt he

theorem takeWhile_eq_filter_of_interval {α : Type} {q : α → Bool}
    {l : List α} (h : l.Pairwise fun a b => q b = true → q a = true) :
    l.takeWhile q = l.filter q := by
  induction l with
  | nil => rfl
  | cons a t ih =>
    rcases List.pairwise_cons.mp h with ⟨ha, ht⟩
    cases hq : q a
    · have hnil : t.filter q = [] := by
        rw [List.filter_eq_nil_iff]
        intro b hb hqb
        have := ha b hb hqb
        rw [hq] at this
        exact Bool.noConfusion this
      rw [List.takeWhile_cons, List.filter_cons, hq]
      simp [hnil]
    · rw [List.takeWhile_cons, List.filter_cons, hq]
      simp [ih ht]

theorem pfx_run_takeWhile_eq_filter {α : Type} {p : Bytes} {keyF : α → Bytes}
    {l : List α}
    (hs : l.Pairwise fun a b => bytesLt (keyF a) (keyF b) = true)
    (hge : ∀ x ∈ l, bytesLt (keyF x) p = false) :
    l.takeWhile (fun x => isPfx p (keyF x))
      = l.filter fun x => isPfx p (keyF x) := by
  apply takeWhile_eq_filter_of_interval
  refine hs.imp_of_mem ?_
  intro a b ha hb hr hqb
  have hba : bytesLt (keyF b) (keyF a) = false := by
    cases hv : bytesLt (keyF b) (keyF a)
    · rfl
    · exact absurd hv (by simpa using bytesLt_asymm hr)
  exact isPfx_between (hge a ha) hba hqb

theorem dropWhile_head_false {α : Type} {q : α → Bool} {l t : List α} {a : α}
    (h : l.dropWhile q = a :: t) : q a = false := by
  induction l with
  | nil => simp [List.dropWhile] at h
  | cons x xs ih =>
    rw [List.dropWhile_cons] at h
    by_cases hx : q x = true
    · rw [if_pos hx] at h
      exact ih h
    · rw [if_neg hx] at h
      obtain ⟨h1, _⟩ := List.cons.inj h
      subst h1
      simpa using hx

theorem lt_pfx_not_isPfx {p k : Bytes} (h : bytesLt k p = true) :
    isPfx p k = false := by
  cases hq : isPfx p k
  · rfl
  · have := isPfx_not_lt hq
    rw [this] at h
    exact Bool.noConfusion h

theorem initRamCur_kind {env : MergeEnv} {ram : List (Bytes × Bytes)}
    {c : Cur} (h : initRamCur env ram = some c) : c.kind = .ram := by
  unfold initRamCur at h
  rcases hdw : ram.dropWhile fun p => bytesLt p.1 env.pfx with _ | ⟨⟨k, v⟩, rs⟩
  · rw [hdw] at h
    exact absurd h (by simp)
  · rw [hdw] at h
    dsimp only at h
    split at h
    · have := Option.some.inj h
      rw [← this]
    · exact absurd h (by simp)

theorem initFileCur_kind {env : MergeEnv} {f : FileTier} {c : Cur}
    (h : initFileCur env f = some c) : c.kind = .file := by
  unfold initFileCur at h
  rcases hdw : f.rows.dropWhile fun p => bytesLt p.1 env.pfx with _ | ⟨⟨k, v⟩, rs⟩
  · rw [hdw] at h
    exact absurd h (by simp)
  · rw [hdw] at h
    dsimp only at h
    split at h
    · have := Option.some.inj h
      rw [← this]
    · exact absurd h (by simp)

theorem initDbCur_ok_some_inv {env : MergeEnv} {rows : List DbRow} {c : Cur}
    (h : initDbCur env rows = .ok (some c)) :
    ∃ r rs, (rows.dropWhile fun x => bytesLt x.key env.pfx) = r :: rs ∧
      isPfx env.pfx r.key = true ∧
      ¬(env.haveRam = true ∧ env.txNum ≤ r.step * env.stepSize) ∧
      c = { kind := .db, key := r.key, val := r.val,
            endTxNum := r.step * env.stepSize,
            rest := dbRowsToEntries rs } := by
  unfold initDbCur at h
  rcases hdw : rows.dropWhile fun x => bytesLt x.key env.pfx with _ | ⟨r, rs⟩
  · rw [hdw] at h
    exact absurd h (by simp)
  · rw [hdw] at h
    dsimp only at h
    by_cases hp : isPfx env.pfx r.key = true
    · rw [if_pos hp] at h
      by_cases hbad : env.haveRam = true ∧ env.txNum ≤ r.step * env.stepSize
      · rw [if_pos hbad] at h
        exact absurd h (by simp)
      · rw [if_neg hbad] at h
        refine ⟨r, rs, hdw, hp, hbad, ?_⟩
        have := Except.ok.inj h
        exact (Option.some.inj this).symm
    · rw [if_neg hp] at h
      exact absurd h (by simp)

theorem initDbCur_error_inv {env : MergeEnv} {rows : List DbRow}
    {msg : String} (h : initDbCur env rows = .error msg) :
    env.haveRam = true ∧ dbBadRow env.pfx env.txNum env.stepSize rows := by
  unfold initDbCur at h
  rcases hdw : rows.dropWhile fun x => bytesLt x.key env.pfx with _ | ⟨r, rs⟩
  · rw [hdw] at h
    exact absurd h (by simp)
  · rw [hdw] at h
    dsimp only at h
    have hrmem : r ∈ rows :=
      (List.dropWhile_sublist _).subset (hdw ▸ List.mem_cons_self r rs)
    by_cases hp : isPfx env.pfx r.key = true
    · rw [if_pos hp] at h
      by_cases hbad : env.haveRam = true ∧ env.txNum ≤ r.step * env.stepSize
      · exact ⟨hbad.1, r, hrmem, hp, hbad.2⟩
      · rw [if_neg hbad] at h
        exact absurd h (by simp)
    · rw [if_neg hp] at h
      exact absurd h (by simp)

theorem heapEntries_append (env : MergeEnv) (a b : List Cur) :
    heapEntries env (a ++ b) = heapEntries env a ++ heapEntries env b := by
  unfold heapEntries
  rw [List.map_append, List.flatten_append]

theorem heapEntries_one (env : MergeEnv) (c : Cur) :
    heapEntries env [c] = curEntries env c := by
  unfold heapEntries
  simp

theorem initDbCur_ok_entries {env : MergeEnv} {rows : List DbRow}
    {oc : Option Cur}
    (hs : rows.Pairwise fun a b => bytesLt a.key b.key = true)
    (hok : initDbCur env rows = .ok oc) :
    heapEntries env (optCurList oc)
      = dbPfxEntries env.pfx env.stepSize rows ∧
    ∀ c ∈ optCurList oc, CurInv env c ∧ c.kind = .db := by
  have hsplit := List.takeWhile_append_dropWhile
    (p := fun r => bytesLt r.key env.pfx) (l := rows)
  have hfilterA : ((rows.takeWhile fun r => bytesLt r.key env.pfx).filter
      fun r => isPfx env.pfx r.key) = [] := by
    rw [List.filter_eq_nil_iff]
    intro a ha hqa
    have hlt : bytesLt a.key env.pfx = true :=
      List.mem_takeWhile_imp (p := fun r : DbRow => bytesLt r.key env.pfx) ha
    rw [lt_pfx_not_isPfx hlt] at hqa
    exact Bool.noConfusion hqa
  have hfilter : dbPfxEntries env.pfx env.stepSize rows
      = ((rows.dropWhile fun r => bytesLt r.key env.pfx).filter
          fun r => isPfx env.pfx r.key).map
            fun r => (r.key, r.val, r.step * env.stepSize) := by
    unfold dbPfxEntries
    conv_lhs => rw [← hsplit]
    rw [List.filter_append, hfilterA]
    rfl
  have hsorted2 : ((rows.dropWhile fun r => bytesLt r.key env.pfx).Pairwise
      fun a b => bytesLt a.key b.key = true) :=
    hs.sublist (List.dropWhile_sublist _)
  unfold initDbCur at hok
  rcases hdw : rows.dropWhile fun x => bytesLt x.key env.pfx with _ | ⟨r, rs⟩
  · rw [hdw] at hok
    have hoc : oc = none := by
      have := Except.ok.inj hok
      exact this.symm
    subst hoc
    refine ⟨?_, by intro c hc; cases hc⟩
    rw [hfilter, hdw]
    rfl
  · rw [hdw] at hok
    dsimp only at hok
    rw [hdw] at hsorted2
    have hrge : bytesLt r.key env.pfx = false :=
      dropWhile_head_false (q := fun x : DbRow => bytesLt x.key env.pfx) hdw
    have hrsge : ∀ x ∈ rs, bytesLt x.key env.pfx = false := by
      intro x hx
      have hrx : bytesLt r.key x.key = true :=
        (List.pairwise_cons.mp hsorted2).1 x hx
      cases hq : bytesLt x.key env.pfx
      · rfl
      · exfalso
        have := bytesLt_trans hrx hq
        rw [this] at hrge
        exact Bool.noConfusion hrge
    by_cases hp : isPfx env.pfx r.key = true
    · rw [if_pos hp] at hok
      by_cases hbad : env.haveRam = true ∧ env.txNum ≤ r.step * env.stepSize
      · rw [if_pos hbad] at hok
        exact absurd hok (by simp)
      · rw [if_neg hbad] at hok
        have hoc : oc = some
            { kind := .db, key := r.key, val := r.val,
              endTxNum := r.step * env.stepSize,
              rest := dbRowsToEntries rs } := (Except.ok.inj hok).symm
        subst hoc
        have hsortedE : (dbRowsToEntries rs).Pairwise
            fun a b => bytesLt a.key b.key = true := by
          unfold dbRowsToEntries
          rw [List.pairwise_map]
          exact (List.pairwise_cons.mp hsorted2).2
        have hgeE : ∀ x ∈ dbRowsToEntries rs,
            bytesLt x.key env.pfx = false := by
          intro x hx
          obtain ⟨rr, hrr, hrx⟩ := List.mem_map.mp hx
          rw [← hrx]
          exact hrsge rr hrr
        have htwf := @pfx_run_takeWhile_eq_filter _ _ MEntry.key _
          hsortedE hgeE
        constructor
        · rw [optCurList, heapEntries_one]
          unfold curEntries
          dsimp only
          rw [htwf, hfilter, hdw, List.filter_cons]
          simp only [hp, if_true]
          unfold dbRowsToEntries
          rw [List.filter_map, List.map_map, List.map_cons]
          refine List.cons_eq_cons.mpr ⟨rfl, ?_⟩
          apply List.map_congr_left
          intro a ha
          simp [entryETN, Function.comp]
        · intro c hc
          have hcc : c =
              { kind := .db, key := r.key, val := r.val,
                endTxNum := r.step * env.stepSize,
                rest := dbRowsToEntries rs } := by
            simpa [optCurList] using hc
          subst hcc
          refine ⟨⟨?_, hp⟩, rfl⟩
          unfold WFCur
          dsimp only
          have hkeys : (dbRowsToEntries rs).map MEntry.key
              = rs.map DbRow.key := by
            unfold dbRowsToEntries
            rw [List.map_map]
            rfl
          rw [hkeys, ← List.map_cons DbRow.key r rs, List.pairwise_map]
          exact hsorted2
    · rw [if_neg hp] at hok
      have hoc : oc = none := (Except.ok.inj hok).symm
      subst hoc
      refine ⟨?_, by intro c hc; cases hc⟩
      rw [hfilter, hdw, List.filter_cons]
      have hpf : isPfx env.pfx r.key = false := by simpa using hp
      simp only [hpf, if_false]
      have : (rs.filter fun x => isPfx env.pfx x.key) = [] := by
        rw [List.filter_eq_nil_iff]
        intro a ha hqa
        have hra : bytesLt a.key r.key = false := by
          have hrx : bytesLt r.key a.key = true :=
            (List.pairwise_cons.mp hsorted2).1 a ha
          cases hv : bytesLt a.key r.key
          · rfl
          · exact absurd hv (by simpa using bytesLt_asymm hrx)
        have := isPfx_between hrge hra hqa
        rw [this] at hpf
        exact Bool.noConfusion hpf
      rw [this]
      rfl

theorem initFileCur_entries {env : MergeEnv} {f : FileTier}
    (hs : f.rows.Pairwise fun a b => bytesLt a.1 b.1 = true) :
    heapEntries env (optCurList (initFileCur env f))
      = filePfxEntries env.pfx f ∧
    ∀ c ∈ optCurList (initFileCur env f), CurInv env c ∧ c.kind = .file := by
  have hsplit := List.takeWhile_append_dropWhile
    (p := fun q : Bytes × Bytes => bytesLt q.1 env.pfx) (l := f.rows)
  have hfilterA : ((f.rows.takeWhile fun q => bytesLt q.1 env.pfx).filter
      fun q => isPfx env.pfx q.1) = [] := by
    rw [List.filter_eq_nil_iff]
    intro a ha hqa
    have hlt : bytesLt a.1 env.pfx = true :=
      List.mem_takeWhile_imp
        (p := fun q : Bytes × Bytes => bytesLt q.1 env.pfx) ha
    rw [lt_pfx_not_isPfx hlt] at hqa
    exact Bool.noConfusion hqa
  have hfilter : filePfxEntries env.pfx f
      = ((f.rows.dropWhile fun q => bytesLt q.1 env.pfx).filter
          fun q => isPfx env.pfx q.1).map
            fun q => (q.1, q.2, f.endTxNum - 1) := by
    unfold filePfxEntries
    conv_lhs => rw [← hsplit]
    rw [List.filter_append, hfilterA]
    rfl
  have hsorted2 : ((f.rows.dropWhile fun q => bytesLt q.1 env.pfx).Pairwise
      fun a b => bytesLt a.1 b.1 = true) :=
    hs.sublist (List.dropWhile_sublist _)
  rcases hdw : f.rows.dropWhile fun q => bytesLt q.1 env.pfx
    with _ | ⟨⟨k, v⟩, rs⟩
  · have hceq : initFileCur env f = none := by
      unfold initFileCur
      rw [hdw]
    rw [hceq]
    refine ⟨?_, by intro c hc; cases hc⟩
    rw [hfilter, hdw]
    rfl
  · rw [hdw] at hsorted2
    have hrge : bytesLt k env.pfx = false :=
      dropWhile_head_false
        (q := fun q : Bytes × Bytes => bytesLt q.1 env.pfx) hdw
    have hrsge : ∀ x ∈ rs, bytesLt x.1 env.pfx = false := by
      intro x hx
      have hrx : bytesLt k x.1 = true :=
        (List.pairwise_cons.mp hsorted2).1 x hx
      cases hq : bytesLt x.1 env.pfx
      · rfl
      · exfalso
        have := bytesLt_trans hrx hq
        rw [this] at hrge
        exact Bool.noConfusion hrge
    by_cases hp : isPfx env.pfx k = true
    · have hceq : initFileCur env f = some
          { kind := .file, key := k, val := v,
            endTxNum := f.endTxNum - 1,
            rest := rs.map fun p => { key := p.1, val := p.2, num := 0 } } := by
        unfold initFileCur
        rw [hdw]
        dsimp only
        rw [if_pos hp]
      rw [hceq]
      have hsortedE : ((rs.map fun p : Bytes × Bytes =>
          ({ key := p.1, val := p.2, num := 0 } : MEntry)).Pairwise
          fun a b => bytesLt a.key b.key = true) := by
        rw [List.pairwise_map]
        exact (List.pairwise_cons.mp hsorted2).2
      have hgeE : ∀ x ∈ rs.map fun p : Bytes × Bytes =>
          ({ key := p.1, val := p.2, num := 0 } : MEntry),
          bytesLt x.key env.pfx = false := by
        intro x hx
        obtain ⟨rr, hrr, hrx⟩ := List.mem_map.mp hx
        rw [← hrx]
        exact hrsge rr hrr
      have htwf := @pfx_run_takeWhile_eq_filter _ _ MEntry.key _
        hsortedE hgeE
      constructor
      · rw [optCurList, heapEntries_one]
        unfold curEntries
        dsimp only
        rw [htwf, hfilter, hdw, List.filter_cons]
        simp only [hp, if_true]
        rw [List.filter_map, List.map_map, List.map_cons]
        refine List.cons_eq_cons.mpr ⟨rfl, ?_⟩
        apply List.map_congr_left
        intro a ha
        simp [entryETN, Function.comp]
      · intro c hc
        have hcc : c =
            { kind := .file, key := k, val := v,
              endTxNum := f.endTxNum - 1,
              rest := rs.map fun p =>
                { key := p.1, val := p.2, num := 0 } } := by
          simpa [optCurList] using hc
        subst hcc
        refine ⟨⟨?_, hp⟩, rfl⟩
        unfold WFCur
        dsimp only
        have hkeys : ((rs.map fun p : Bytes × Bytes =>
            ({ key := p.1, val := p.2, num := 0 } : MEntry)).map MEntry.key)
            = rs.map Prod.fst := by
          rw [List.map_map]
          rfl
        rw [hkeys, ← List.map_cons Prod.fst (k, v) rs, List.pairwise_map]
        exact hsorted2
    · have hceq : initFileCur env f = none := by
        unfold initFileCur
        rw [hdw]
        dsimp only
        rw [if_neg hp]
      rw [hceq]
      refine ⟨?_, by intro c hc; cases hc⟩
      rw [hfilter, hdw, List.filter_cons]
      have hpf : isPfx env.pfx k = false := by simpa using hp
      simp only [hpf, if_false]
      have hnil : (rs.filter fun q => isPfx env.pfx q.1) = [] := by
        rw [List.filter_eq_nil_iff]
        intro a ha hqa
        have hra : bytesLt a.1 k = false := by
          have hrx : bytesLt k a.1 = true :=
            (List.pairwise_cons.mp hsorted2).1 a ha
          cases hv : bytesLt a.1 k
          · rfl
          · exact absurd hv (by simpa using bytesLt_asymm hrx)
        have := isPfx_between hrge hra hqa
        rw [this] at hpf
        exact Bool.noConfusion hpf
      rw [hnil]
      rfl

theorem initRamCur_entries {env : MergeEnv} {ram : List (Bytes × Bytes)}
    (hs : ram.Pairwise fun a b => bytesLt a.1 b.1 = true)
    (hne : ∀ p ∈ ram, p.1 ≠ []) :
    heapEntries env (optCurList (initRamCur env ram))
      = ramPfxEntries env.pfx env.txNum ram ∧
    ∀ c ∈ optCurList (initRamCur env ram), CurInv env c ∧ c.kind = .ram := by
  have hsplit := List.takeWhile_append_dropWhile
    (p := fun q : Bytes × Bytes => bytesLt q.1 env.pfx) (l := ram)
  have hfilterA : ((ram.takeWhile fun q => bytesLt q.1 env.pfx).filter
      fun q => isPfx env.pfx q.1) = [] := by
    rw [List.filter_eq_nil_iff]
    intro a ha hqa
    have hlt : bytesLt a.1 env.pfx = true :=
      List.mem_takeWhile_imp
        (p := fun q : Bytes × Bytes => bytesLt q.1 env.pfx) ha
    rw [lt_pfx_not_isPfx hlt] at hqa
    exact Bool.noConfusion hqa
  have hfilter : ramPfxEntries env.pfx env.txNum ram
      = ((ram.dropWhile fun q => bytesLt q.1 env.pfx).filter
          fun q => isPfx env.pfx q.1).map
            fun q => (q.1, q.2, env.txNum) := by
    unfold ramPfxEntries
    conv_lhs => rw [← hsplit]
    rw [List.filter_append, hfilterA]
    rfl
  have hsorted2 : ((ram.dropWhile fun q => bytesLt q.1 env.pfx).Pairwise
      fun a b => bytesLt a.1 b.1 = true) :=
    hs.sublist (List.dropWhile_sublist _)
  rcases hdw : ram.dropWhile fun q => bytesLt q.1 env.pfx
    with _ | ⟨⟨k, v⟩, rs⟩
  · have hceq : initRamCur env ram = none := by
      unfold initRamCur
      rw [hdw]
    rw [hceq]
    refine ⟨?_, by intro c hc; cases hc⟩
    rw [hfilter, hdw]
    rfl
  · rw [hdw] at hsorted2
    have hrge : bytesLt k env.pfx = false :=
      dropWhile_head_false
        (q := fun q : Bytes × Bytes => bytesLt q.1 env.pfx) hdw
    have hrsge : ∀ x ∈ rs, bytesLt x.1 env.pfx = false := by
      intro x hx
      have hrx : bytesLt k x.1 = true :=
        (List.pairwise_cons.mp hsorted2).1 x hx
      cases hq : bytesLt x.1 env.pfx
      · rfl
      · exfalso
        have := bytesLt_trans hrx hq
        rw [this] at hrge
        exact Bool.noConfusion hrge
    have hklen : k.length > 0 := by
      have hkmem : (k, v) ∈ ram :=
        (List.dropWhile_sublist _).subset (hdw ▸ List.mem_cons_self _ rs)
      have := hne (k, v) hkmem
      cases k with
      | nil => exact absurd rfl this
      | cons a as => simp
    by_cases hp : isPfx env.pfx k = true
    · have hceq : initRamCur env ram = some
          { kind := .ram, key := k, val := v, endTxNum := env.txNum,
            rest := rs.map fun p => { key := p.1, val := p.2, num := 0 } } := by
        unfold initRamCur
        rw [hdw]
        dsimp only
        rw [if_pos ⟨hklen, hp⟩]
      rw [hceq]
      have hsortedE : ((rs.map fun p : Bytes × Bytes =>
          ({ key := p.1, val := p.2, num := 0 } : MEntry)).Pairwise
          fun a b => bytesLt a.key b.key = true) := by
        rw [List.pairwise_map]
        exact (List.pairwise_cons.mp hsorted2).2
      have hgeE : ∀ x ∈ rs.map fun p : Bytes × Bytes =>
          ({ key := p.1, val := p.2, num := 0 } : MEntry),
          bytesLt x.key env.pfx = false := by
        intro x hx
        obtain ⟨rr, hrr, hrx⟩ := List.mem_map.mp hx
        rw [← hrx]
        exact hrsge rr hrr
      have htwf := @pfx_run_takeWhile_eq_filter _ _ MEntry.key _
        hsortedE hgeE
      constructor
      · rw [optCurList, heapEntries_one]
        unfold curEntries
        dsimp only
        rw [htwf, hfilter, hdw, List.filter_cons]
        simp only [hp, if_true]
        rw [List.filter_map, List.map_map, List.map_cons]
        refine List.cons_eq_cons.mpr ⟨rfl, ?_⟩
        apply List.map_congr_left
        intro a ha
        simp [entryETN, Function.comp]
      · intro c hc
        have hcc : c =
            { kind := .ram, key := k, val := v, endTxNum := env.txNum,
              rest := rs.map fun p =>
                { key := p.1, val := p.2, num := 0 } } := by
          simpa [optCurList] using hc
        subst hcc
        refine ⟨⟨?_, hp⟩, rfl⟩
        unfold WFCur
        dsimp only
        have hkeys : ((rs.map fun p : Bytes × Bytes =>
            ({ key := p.1, val := p.2, num := 0 } : MEntry)).map MEntry.key)
            = rs.map Prod.fst := by
          rw [List.map_map]
          rfl
        rw [hkeys, ← List.map_cons Prod.fst (k, v) rs, List.pairwise_map]
        exact hsorted2
    · have hceq : initRamCur env ram = none := by
        unfold initRamCur
        rw [hdw]
        dsimp only
        rw [if_neg fun hand => hp hand.2]
      rw [hceq]
      refine ⟨?_, by intro c hc; cases hc⟩
      rw [hfilter, hdw, List.filter_cons]
      have hpf : isPfx env.pfx k = false := by simpa using hp
      simp only [hpf, if_false]
      have hnil : (rs.filter fun q => isPfx env.pfx q.1) = [] := by
        rw [List.filter_eq_nil_iff]
        intro a ha hqa
        have hra : bytesLt a.1 k = false := by
          have hrx : bytesLt k a.1 = true :=
            (List.pairwise_cons.mp hsorted2).1 a ha
          cases hv : bytesLt a.1 k
          · rfl
          · exact absurd hv (by simpa using bytesLt_asymm hrx)
        have := isPfx_between hrge hra hqa
        rw [this] at hpf
        exact Bool.noConfusion hpf
      rw [hnil]
      rfl

theorem files_cursors_entries {env : MergeEnv} {files : List FileTier}
    (hs : ∀ f ∈ files, f.rows.Pairwise fun a b => bytesLt a.1 b.1 = true) :
    heapEntries env (files.filterMap (initFileCur env))
      = filesPfxEntries env.pfx files ∧
    ∀ c ∈ files.filterMap (initFileCur env), CurInv env c ∧ c.kind = .file := by
  induction files with
  | nil => exact ⟨rfl, by intro c hc; cases hc⟩
  | cons f fs ih =>
    obtain ⟨ih1, ih2⟩ := ih fun g hg => hs g (List.mem_cons_of_mem _ hg)
    have hf := @initFileCur_entries env f (hs f (List.mem_cons_self f fs))
    rw [List.filterMap_cons]
    rcases hc : initFileCur env f with _ | c
    · rw [hc] at hf
      have hemp : filePfxEntries env.pfx f = [] := by
        rw [← hf.1]
        rfl
      refine ⟨?_, ih2⟩
      rw [ih1]
      unfold filesPfxEntries
      rw [List.map_cons, List.flatten_cons, hemp]
      rfl
    · rw [hc] at hf
      constructor
      · have hone : curEntries env c = filePfxEntries env.pfx f := by
          rw [← hf.1, optCurList, heapEntries_one]
        unfold filesPfxEntries heapEntries
        rw [List.map_cons, List.flatten_cons, List.map_cons,
          List.flatten_cons, hone]
        have : (fs.map (filePfxEntries env.pfx)).flatten
            = filesPfxEntries env.pfx fs := rfl
        rw [this, ← ih1]
        rfl
      · intro c2 hc2
        rcases List.mem_cons.mp hc2 with h | h
        · subst h
          exact hf.2 c2 (by simp [optCurList])
        · exact ih2 c2 h

theorem popGroupF_entries_sub {env : MergeEnv} {lastKey : Bytes}
    {fuel : Nat} {heap h2 : List Cur}
    (hp : popGroupF env lastKey fuel heap = some (.ok h2))
    (hinv : ∀ c ∈ heap, CurInv env c)
    (hge : ∀ c ∈ heap, bytesLt c.key lastKey = false) :
    ∀ kv ∈ heapEntries env h2,
      kv ∈ heapEntries env heap ∧ bytesLt lastKey kv.1 = true := by
  intro kv hkv
  have hinv2 := popGroupF_inv hp hinv hge
  have hgt := entries_key_gt hinv2 hkv
  have hne : kv.1 ≠ lastKey := by
    intro he
    rw [he, bytesLt_irrefl] at hgt
    exact Bool.noConfusion hgt
  exact ⟨(popGroupF_entries hp kv hne).mpr hkv, hgt⟩

/-- The master invariant of the merge loop: starting from cursors
satisfying the heap invariant and an accumulator of nonempty-valued,
reverse-sorted pairs whose keys precede every pending entry, the loop
returns keys in strictly ascending order, never yields an empty value,
and every emitted pair either was already accumulated or carries the
value of a pending entry of maximal endTxNum at its key. -/
theorem mergeRunF_main {env : MergeEnv} :
    ∀ {fuel : Nat} {heap : List Cur} {acc out : List (Bytes × Bytes)},
      mergeRunF env fuel heap acc = some (.ok out) →
      (∀ c ∈ heap, CurInv env c) →
      acc.Pairwise (fun x y => bytesLt y.1 x.1 = true) →
      (∀ a ∈ acc, ∀ kv ∈ heapEntries env heap, bytesLt a.1 kv.1 = true) →
      (∀ a ∈ acc, a.2 ≠ []) →
      out.Pairwise (fun x y => bytesLt x.1 y.1 = true) ∧
      (∀ a ∈ out, a.2 ≠ []) ∧
      (∀ a ∈ out, a ∈ acc ∨
        ∃ etn, (a.1, a.2, etn) ∈ heapEntries env heap ∧
          ∀ v2 e2, (a.1, v2, e2) ∈ heapEntries env heap → e2 ≤ etn) := by
  intro fuel
  induction fuel with
  | zero => intro heap acc out h _ _ _ _; simp [mergeRunF] at h
  | succ n ih =>
    intro heap acc out h hinv hacc hsep hval
    rw [mergeRunF] at h
    rcases hx : extractMin heap with _ | ⟨top, rest⟩
    · rw [hx] at h
      have hout : acc.reverse = out := by simpa using h
      rw [← hout]
      refine ⟨?_, ?_, ?_⟩
      · rw [List.pairwise_reverse]
        exact hacc
      · intro a ha
        exact hval a (List.mem_reverse.mp ha)
      · intro a ha
        exact Or.inl (List.mem_reverse.mp ha)
    · rw [hx] at h
      dsimp only at h
      rcases hp : popGroupF env top.key (n + 1) heap with _ | r
      · rw [hp] at h
        exact absurd h (by simp)
      · rcases r with m2 | heap2
        · rw [hp] at h
          exact absurd h (by simp)
        · rw [hp] at h
          have hge := extractMin_key_min hx
          have hinv2full := popGroupF_inv hp hinv hge
          have hinv2 : ∀ c ∈ heap2, CurInv env c :=
            fun c hc => (hinv2full c hc).1
          have hsub := popGroupF_entries_sub hp hinv hge
          have htopmem := @top_entry_mem env heap top rest hx
          by_cases hv : top.val.length > 0
          · rw [if_pos hv] at h
            have hacc2 : ((top.key, top.val) :: acc).Pairwise
                fun x y => bytesLt y.1 x.1 = true := by
              rw [List.pairwise_cons]
              exact ⟨fun y hy => hsep y hy _ htopmem, hacc⟩
            have hsep2 : ∀ a ∈ (top.key, top.val) :: acc,
                ∀ kv ∈ heapEntries env heap2, bytesLt a.1 kv.1 = true := by
              intro a ha kv hkv
              rcases List.mem_cons.mp ha with hh | hh
              · subst hh
                exact (hsub kv hkv).2
              · exact hsep a hh kv (hsub kv hkv).1
            have hval2 : ∀ a ∈ (top.key, top.val) :: acc, a.2 ≠ [] := by
              intro a ha
              rcases List.mem_cons.mp ha with hh | hh
              · subst hh
                intro hcon
                have hcon2 : top.val = [] := hcon
                rw [hcon2] at hv
                simp at hv
              · exact hval a hh
            obtain ⟨ho1, ho2, ho3⟩ := ih h hinv2 hacc2 hsep2 hval2
            refine ⟨ho1, ho2, ?_⟩
            intro a ha
            rcases ho3 a ha with hh | ⟨etn, hmem, hmax⟩
            · rcases List.mem_cons.mp hh with hh2 | hh2
              · subst hh2
                exact Or.inr ⟨top.endTxNum, htopmem,
                  fun v2 e2 hm => top_max_at_key hinv hx v2 e2 hm⟩
              · exact Or.inl hh2
            · right
              refine ⟨etn, (hsub _ hmem).1, ?_⟩
              intro v2 e2 hm
              have hne : a.1 ≠ top.key := by
                intro he
                have := (hsub _ hmem).2
                rw [he, bytesLt_irrefl] at this
                exact Bool.noConfusion this
              have hm2 : ((a.1, v2, e2) : Bytes × Bytes × Nat)
                  ∈ heapEntries env heap2 :=
                (popGroupF_entries hp (a.1, v2, e2) hne).mp hm
              exact hmax v2 e2 hm2
          · rw [if_neg hv] at h
            obtain ⟨ho1, ho2, ho3⟩ := ih h hinv2 hacc
              (fun a ha kv hkv => hsep a ha kv (hsub kv hkv).1) hval
            refine ⟨ho1, ho2, ?_⟩
            intro a ha
            rcases ho3 a ha with hh | ⟨etn, hmem, hmax⟩
            · exact Or.inl hh
            · right
              refine ⟨etn, (hsub _ hmem).1, ?_⟩
              intro v2 e2 hm
              have hne : a.1 ≠ top.key := by
                intro he
                have := (hsub _ hmem).2
                rw [he, bytesLt_irrefl] at this
                exact Bool.noConfusion this
              exact hmax v2 e2
                ((popGroupF_entries hp (a.1, v2, e2) hne).mp hm)

/-- Completeness of the merge loop: every pending key is either emitted
(with some value) or its maximal-endTxNum pending entry is a tombstone. -/
theorem mergeRunF_complete {env : MergeEnv} :
    ∀ {fuel : Nat} {heap : List Cur} {acc out : List (Bytes × Bytes)},
      mergeRunF env fuel heap acc = some (.ok out) →
      (∀ c ∈ heap, CurInv env c) →
      ∀ kv ∈ heapEntries env heap,
        (∃ v, (kv.1, v) ∈ out) ∨
        ∃ e2, ((kv.1, [], e2) : Bytes × Bytes × Nat) ∈ heapEntries env heap ∧
          ∀ v3 e3, (kv.1, v3, e3) ∈ heapEntries env heap → e3 ≤ e2 := by
  intro fuel
  induction fuel with
  | zero => intro heap acc out h _; simp [mergeRunF] at h
  | succ n ih =>
    intro heap acc out h hinv kv hkv
    rw [mergeRunF] at h
    rcases hx : extractMin heap with _ | ⟨top, rest⟩
    · exfalso
      have he : heap = [] := extractMin_none.mp hx
      subst he
      exact absurd hkv (by simp [heapEntries])
    · rw [hx] at h
      dsimp only at h
      rcases hp : popGroupF env top.key (n + 1) heap with _ | r
      · rw [hp] at h
        exact absurd h (by simp)
      · rcases r with m2 | heap2
        · rw [hp] at h
          exact absurd h (by simp)
        · rw [hp] at h
          have hge := extractMin_key_min hx
          have hinv2full := popGroupF_inv hp hinv hge
          have hinv2 : ∀ c ∈ heap2, CurInv env c :=
            fun c hc => (hinv2full c hc).1
          have hsub := popGroupF_entries_sub hp hinv hge
          by_cases hktop : kv.1 = top.key
          · by_cases hv : top.val.length > 0
            · rw [if_pos hv] at h
              left
              refine ⟨top.val, ?_⟩
              rw [hktop]
              exact mergeRunF_acc_sub h (top.key, top.val) (by simp)
            · right
              have hvnil : top.val = [] := by
                cases hq : top.val with
                | nil => rfl
                | cons x xs =>
                  rw [hq] at hv
                  simp at hv
              refine ⟨top.endTxNum, ?_, ?_⟩
              · rw [hktop, ← hvnil]
                exact @top_entry_mem env heap top rest hx
              · intro v3 e3 hm
                rw [hktop] at hm
                exact top_max_at_key hinv hx v3 e3 hm
          · have hkv2 : kv ∈ heapEntries env heap2 :=
              (popGroupF_entries hp kv hktop).mp hkv
            have h2 : mergeRunF env n heap2
                (if top.val.length > 0 then (top.key, top.val) :: acc
                  else acc) = some (.ok out) := h
            rcases ih h2 hinv2 kv hkv2 with hh | ⟨e2, hmem2, hmax2⟩
            · exact Or.inl hh
            · right
              refine ⟨e2, (hsub _ hmem2).1, ?_⟩
              intro v3 e3 hm
              exact hmax2 v3 e3
                ((popGroupF_entries hp (kv.1, v3, e3) hktop).mp hm)

theorem no_bad_of_not_ram {env : MergeEnv} (hr : env.haveRam = false)
    {c : Cur} : ¬ curHasBadDb env c := by
  rintro ⟨_, en, _, hbad, _⟩
  rw [hr] at hbad
  exact Bool.noConfusion hbad

theorem mergeRun_ok_of_not_ram {env : MergeEnv} (hr : env.haveRam = false)
    (heap : List Cur) (acc : List (Bytes × Bytes)) :
    ∃ out, mergeRun env heap acc = .ok out := by
  rcases hmr : mergeRun env heap acc with msg | out
  · exfalso
    have := @mergeRun_eq env heap acc
    rw [hmr] at this
    obtain ⟨c, _, hbad⟩ := mergeRunF_error_bad this
    exact no_bad_of_not_ram hr hbad
  · exact ⟨out, rfl⟩

theorem iteratePfx_run (pfx : Bytes) (stepSize : Nat) (dbRows : List DbRow)
    (files : List FileTier)
    (hdb : dbRows.Pairwise fun a b => bytesLt a.key b.key = true)
    (hf : ∀ f ∈ files, f.rows.Pairwise fun a b => bytesLt a.1 b.1 = true) :
    ∃ out, iteratePfx pfx stepSize dbRows files = .ok out ∧
      out.Pairwise (fun x y => bytesLt x.1 y.1 = true) ∧
      (∀ a ∈ out, a.2 ≠ []) ∧
      ∀ a ∈ out, ∃ etn,
        ((a.1, a.2, etn) : Bytes × Bytes × Nat)
            ∈ dbPfxEntries pfx stepSize dbRows ++ filesPfxEntries pfx files ∧
        ∀ v2 e2, ((a.1, v2, e2) : Bytes × Bytes × Nat)
            ∈ dbPfxEntries pfx stepSize dbRows ++ filesPfxEntries pfx files →
          e2 ≤ etn := by
  have hr : (MergeEnv.mk pfx false 0 stepSize).haveRam = false := rfl
  rcases hini : initDbCur (MergeEnv.mk pfx false 0 stepSize) dbRows
    with msg | od
  · exfalso
    have := (initDbCur_error_inv hini).1
    rw [hr] at this
    exact Bool.noConfusion this
  · obtain ⟨hdbe, hdbinv⟩ := initDbCur_ok_entries hdb hini
    obtain ⟨hfe, hfinv⟩ := @files_cursors_entries
      (MergeEnv.mk pfx false 0 stepSize) files hf
    obtain ⟨out, hout⟩ := mergeRun_ok_of_not_ram hr
      (optCurList od
        ++ files.filterMap (initFileCur (MergeEnv.mk pfx false 0 stepSize)))
      []
    have hrun := @mergeRun_eq (MergeEnv.mk pfx false 0 stepSize)
      (optCurList od
        ++ files.filterMap (initFileCur (MergeEnv.mk pfx false 0 stepSize)))
      []
    rw [hout] at hrun
    have hinv : ∀ c ∈ optCurList od
        ++ files.filterMap (initFileCur (MergeEnv.mk pfx false 0 stepSize)),
        CurInv (MergeEnv.mk pfx false 0 stepSize) c := by
      intro c hc
      rcases List.mem_append.mp hc with hh | hh
      · exact (hdbinv c hh).1
      · exact (hfinv c hh).1
    have hentries : heapEntries (MergeEnv.mk pfx false 0 stepSize)
        (optCurList od
          ++ files.filterMap (initFileCur (MergeEnv.mk pfx false 0 stepSize)))
        = dbPfxEntries pfx stepSize dbRows ++ filesPfxEntries pfx files := by
      rw [heapEntries_append, hdbe, hfe]
    obtain ⟨ho1, ho2, ho3⟩ := mergeRunF_main hrun hinv List.Pairwise.nil
      (by intro a ha; cases ha) (by intro a ha; cases ha)
    refine ⟨out, ?_, ho1, ho2, ?_⟩
    · unfold iteratePfx
      dsimp only
      rw [hini]
      exact hout
    · intro a ha
      rcases ho3 a ha with hh | ⟨etn, hmem, hmax⟩
      · cases hh
      · rw [hentries] at hmem
        refine ⟨etn, hmem, ?_⟩
        intro v2 e2 hm
        rw [← hentries] at hm
        exact hmax v2 e2 hm

theorem mem_optCurList {oc : Option Cur} {c : Cur}
    (h : c ∈ optCurList oc) : oc = some c := by
  cases oc with
  | none => cases h
  | some c0 =>
    have : c = c0 := by simpa [optCurList] using h
    rw [this]

theorem haveRam_true_of_ne {ram : List (Bytes × Bytes)} (h : ram ≠ []) :
    (!ram.isEmpty) = true := by
  cases ram with
  | nil => exact absurd rfl h
  | cons a l => rfl

theorem ne_of_haveRam_true {ram : List (Bytes × Bytes)}
    (h : (!ram.isEmpty) = true) : ram ≠ [] := by
  cases ram with
  | nil => simp at h
  | cons a l => simp

/-- With in-memory updates present, `IterateStoragePrefix` fails exactly
when the hot tier holds a prefixed row whose recomputed endTxNum is not
strictly behind `sd.txNum`. -/
theorem iterateStoragePfx_error_iff {pfx : Bytes} {txNum stepSize : Nat}
    {ram : List (Bytes × Bytes)} {dbRows : List DbRow}
    {files : List FileTier}
    (hdb : dbRows.Pairwise fun a b => bytesLt a.key b.key = true) :
    (∃ msg, iterateStoragePfx pfx txNum stepSize ram dbRows files
        = .error msg) ↔
      ram ≠ [] ∧ dbBadRow pfx txNum stepSize dbRows := by
  constructor
  · rintro ⟨msg, hres⟩
    unfold iterateStoragePfx at hres
    dsimp only at hres
    rcases hini : initDbCur (MergeEnv.mk pfx (!ram.isEmpty) txNum stepSize)
      dbRows with msg2 | od
    · rw [hini] at hres
      obtain ⟨hhr, hbadrow⟩ := initDbCur_error_inv hini
      exact ⟨ne_of_haveRam_true hhr, hbadrow⟩
    · rw [hini] at hres
      dsimp only at hres
      have hrun := @mergeRun_eq (MergeEnv.mk pfx (!ram.isEmpty) txNum stepSize)
        (optCurList (initRamCur (MergeEnv.mk pfx (!ram.isEmpty) txNum
            stepSize) ram)
          ++ optCurList od
          ++ files.filterMap (initFileCur
            (MergeEnv.mk pfx (!ram.isEmpty) txNum stepSize)))
        []
      rw [hres] at hrun
      obtain ⟨c, hc, hkind, en, hen, hhr, hnum⟩ := mergeRunF_error_bad hrun
      rcases List.mem_append.mp hc with hc1 | hc2
      · rcases List.mem_append.mp hc1 with hcr | hcd
        · have := initRamCur_kind (mem_optCurList hcr)
          rw [hkind] at this
          exact absurd this (by simp)
        · have hod : od = some c := mem_optCurList hcd
          subst hod
          obtain ⟨r, rs, hdw, hp, hnotbad, hceq⟩ :=
            initDbCur_ok_some_inv hini
          have henrest : en ∈ c.rest :=
            (List.takeWhile_sublist _).subset hen
          have henpfx : isPfx pfx en.key = true :=
            List.mem_takeWhile_imp (p := fun x : MEntry => isPfx pfx x.key)
              hen
          rw [hceq] at henrest
          dsimp only at henrest
          obtain ⟨row, hrow, hrowe⟩ := List.mem_map.mp henrest
          have hrowmem : row ∈ dbRows := by
            have h1 : row ∈ r :: rs := List.mem_cons_of_mem _ hrow
            rw [← hdw] at h1
            exact (List.dropWhile_sublist _).subset h1
          refine ⟨ne_of_haveRam_true hhr, row, hrowmem, ?_, ?_⟩
          · rw [← hrowe] at henpfx
            exact henpfx
          · have : en.num = row.step := by rw [← hrowe]
            rw [this] at hnum
            exact hnum
      · obtain ⟨f, hf2, hfc⟩ := List.mem_filterMap.mp hc2
        have := initFileCur_kind hfc
        rw [hkind] at this
        exact absurd this (by simp)
  · rintro ⟨hram, r, hrmem, hrpfx, hrbad⟩
    have hhr : (!ram.isEmpty) = true := haveRam_true_of_ne hram
    rcases hres : iterateStoragePfx pfx txNum stepSize ram dbRows files
      with msg | out
    · exact ⟨msg, rfl⟩
    · exfalso
      unfold iterateStoragePfx at hres
      dsimp only at hres
      rcases hini : initDbCur (MergeEnv.mk pfx (!ram.isEmpty) txNum stepSize)
        dbRows with msg2 | od
      · rw [hini] at hres
        exact absurd hres (by simp)
      · rw [hini] at hres
        dsimp only at hres
        have hrun := @mergeRun_eq
          (MergeEnv.mk pfx (!ram.isEmpty) txNum stepSize)
          (optCurList (initRamCur (MergeEnv.mk pfx (!ram.isEmpty) txNum
              stepSize) ram)
            ++ optCurList od
            ++ files.filterMap (initFileCur
              (MergeEnv.mk pfx (!ram.isEmpty) txNum stepSize)))
          []
        rw [hres] at hrun
        have hnobad := mergeRunF_ok_no_bad hrun
        obtain ⟨hdbe, hdbinv⟩ := initDbCur_ok_entries hdb hini
        have htriple : ((r.key, r.val, r.step * stepSize) :
            Bytes × Bytes × Nat) ∈ heapEntries
            (MergeEnv.mk pfx (!ram.isEmpty) txNum stepSize)
            (optCurList od) := by
          rw [hdbe]
          unfold dbPfxEntries
          exact List.mem_map.mpr ⟨r, List.mem_filter.mpr ⟨hrmem, hrpfx⟩, rfl⟩
        obtain ⟨c, hcmem, hctriple⟩ := mem_heapEntries.mp htriple
        have hod : od = some c := mem_optCurList hcmem
        subst hod
        obtain ⟨r0, rs, hdw, hp0, hnotbad, hceq⟩ :=
          initDbCur_ok_some_inv hini
        unfold curEntries at hctriple
        rcases List.mem_cons.mp hctriple with hh | hh
        · have he3 : r.step * stepSize = c.endTxNum :=
            congrArg (fun x => x.2.2) hh
          rw [hceq] at he3
          dsimp only at he3
          refine hnotbad ⟨hhr, ?_⟩
          dsimp only
          rw [← he3]
          exact hrbad
        · obtain ⟨en, hen, hentr⟩ := List.mem_map.mp hh
          have hbadc : curHasBadDb
              (MergeEnv.mk pfx (!ram.isEmpty) txNum stepSize) c := by
            refine ⟨by rw [hceq], en, hen, hhr, ?_⟩
            have he3 : entryETN (MergeEnv.mk pfx (!ram.isEmpty) txNum
                stepSize) c en = r.step * stepSize :=
              congrArg (fun x => x.2.2) hentr
            have hkind : c.kind = .db := by rw [hceq]
            unfold entryETN at he3
            rw [hkind] at he3
            dsimp only at he3
            rw [he3]
            exact hrbad
          exact hnobad ⟨c, List.mem_append.mpr (Or.inl
            (List.mem_append.mpr (Or.inr hcmem))), hbadc⟩

/-- C5: `DomainContext.IteratePrefix(p, visit)` (over sorted hot-tier and
file rows) invokes `visit` on each distinct key at most once, in strictly
ascending lexicographic key order, never with an empty (tombstone) value,
and with the value taken from a source row — hot-tier or file — of
greatest endTxNum for that key. -/
theorem iteratePfx_spec (pfx : Bytes) (stepSize : Nat) (dbRows : List DbRow)
    (files : List FileTier)
    (hdb : dbRows.Pairwise fun a b => bytesLt a.key b.key = true)
    (hf : ∀ f ∈ files, f.rows.Pairwise fun a b => bytesLt a.1 b.1 = true) :
    ∃ out, iteratePfx pfx stepSize dbRows files = .ok out ∧
      out.Pairwise (fun x y => bytesLt x.1 y.1 = true) ∧
      (∀ a ∈ out, a.2 ≠ []) ∧
      ∀ a ∈ out, ∃ etn,
        ((a.1, a.2, etn) : Bytes × Bytes × Nat)
            ∈ dbPfxEntries pfx stepSize dbRows ++ filesPfxEntries pfx files ∧
        ∀ v2 e2, ((a.1, v2, e2) : Bytes × Bytes × Nat)
            ∈ dbPfxEntries pfx stepSize dbRows ++ filesPfxEntries pfx files →
          e2 ≤ etn :=
  iteratePfx_run pfx stepSize dbRows files hdb hf

theorem iteratePfx_spec_witness :
    (List.Pairwise (fun a b => bytesLt a.key b.key = true)
        [({ key := [1, 2], step := 3, val := [7] } : DbRow)]) ∧
    (∀ f ∈ [FileTier.mk 2 [([1, 2], [9]), ([1, 3], [])]],
        f.rows.Pairwise fun a b => bytesLt a.1 b.1 = true) ∧
    ∃ out, iteratePfx [1] 1 [{ key := [1, 2], step := 3, val := [7] }]
        [FileTier.mk 2 [([1, 2], [9]), ([1, 3], [])]] = .ok out ∧
      out.Pairwise (fun x y => bytesLt x.1 y.1 = true) ∧
      (∀ a ∈ out, a.2 ≠ []) ∧
      ∀ a ∈ out, ∃ etn,
        ((a.1, a.2, etn) : Bytes × Bytes × Nat)
            ∈ dbPfxEntries [1] 1 [{ key := [1, 2], step := 3, val := [7] }]
              ++ filesPfxEntries [1]
                [FileTier.mk 2 [([1, 2], [9]), ([1, 3], [])]] ∧
        ∀ v2 e2, ((a.1, v2, e2) : Bytes × Bytes × Nat)
            ∈ dbPfxEntries [1] 1 [{ key := [1, 2], step := 3, val := [7] }]
              ++ filesPfxEntries [1]
                [FileTier.mk 2 [([1, 2], [9]), ([1, 3], [])]] →
          e2 ≤ etn :=
  ⟨by decide, by decide,
    iteratePfx_spec [1] 1 [{ key := [1, 2], step := 3, val := [7] }]
      [FileTier.mk 2 [([1, 2], [9]), ([1, 3], [])]] (by decide) (by decide)⟩

/-- C4 (corrected): with in-memory storage updates present (`ram ≠ []`,
i.e. `sd.storage.Len() > 0`), `SharedDomains.IterateStoragePrefix` over a
sorted hot tier returns an error iff some hot-tier row under the prefix
has recomputed `endTxNum = step * stepSize` with `txNum ≤ endTxNum`: the
code requires the ram position to be strictly ahead (`ramTxNum >
dbEndTxNum`), so — contrary to the claim — an error is also raised when
`ramTxNum ≥ dbEndTxNum` holds with equality. -/
theorem iterateStoragePfx_spec {pfx : Bytes} {txNum stepSize : Nat}
    {ram : List (Bytes × Bytes)} {dbRows : List DbRow}
    {files : List FileTier}
    (hdb : dbRows.Pairwise fun a b => bytesLt a.key b.key = true) :
    (∃ msg, iterateStoragePfx pfx txNum stepSize ram dbRows files
        = .error msg) ↔
      ram ≠ [] ∧ dbBadRow pfx txNum stepSize dbRows :=
  iterateStoragePfx_error_iff hdb

theorem iterateStoragePfx_spec_witness :
    (List.Pairwise (fun a b => bytesLt a.key b.key = true)
        [({ key := [1], step := 1, val := [7] } : DbRow)]) ∧
    ((∃ msg, iterateStoragePfx [1] 4 4 [([2], [9])]
        [{ key := [1], step := 1, val := [7] }] [] = .error msg) ↔
      ([(([2] : Bytes), ([9] : Bytes))] ≠ [] ∧
        dbBadRow [1] 4 4 [{ key := [1], step := 1, val := [7] }])) :=
  ⟨by decide, iterateStoragePfx_spec (by decide)⟩

/-- The `ram must be ahead of db` check fires already at equality: with
`sd.txNum = 4` and a prefixed hot-tier row of `endTxNum = 1 * 4 = 4`,
every prefixed row satisfies the claimed invariant
`ramTxNum ≥ dbEndTxNum`, yet the iteration errors. -/
theorem iterateStoragePfx_ge_counterexample :
    (∀ r ∈ [({ key := [1], step := 1, val := [7] } : DbRow)],
        isPfx [1] r.key = true → r.step * 4 ≤ 4) ∧
    iterateStoragePfx [1] 4 4 [([2], [9])]
        [{ key := [1], step := 1, val := [7] }] []
      = .error "ram must be ahead of db" := by
  constructor
  · decide
  · rfl

theorem iterateStoragePfx_ok_run {pfx : Bytes} {txNum stepSize : Nat}
    {ram : List (Bytes × Bytes)} {dbRows : List DbRow}
    {files : List FileTier} {out : List (Bytes × Bytes)}
    (h : iterateStoragePfx pfx txNum stepSize ram dbRows files = .ok out)
    (hram : ram.Pairwise fun a b => bytesLt a.1 b.1 = true)
    (hramne : ∀ p ∈ ram, p.1 ≠ [])
    (hdb : dbRows.Pairwise fun a b => bytesLt a.key b.key = true)
    (hf : ∀ f ∈ files, f.rows.Pairwise fun a b => bytesLt a.1 b.1 = true) :
    out.Pairwise (fun x y => bytesLt x.1 y.1 = true) ∧
    (∀ a ∈ out, a.2 ≠ []) ∧
    (∀ a ∈ out, ∃ etn,
      ((a.1, a.2, etn) : Bytes × Bytes × Nat)
          ∈ ramPfxEntries pfx txNum ram
            ++ (dbPfxEntries pfx stepSize dbRows
              ++ filesPfxEntries pfx files) ∧
      ∀ v2 e2, ((a.1, v2, e2) : Bytes × Bytes × Nat)
          ∈ ramPfxEntries pfx txNum ram
            ++ (dbPfxEntries pfx stepSize dbRows
              ++ filesPfxEntries pfx files) → e2 ≤ etn) ∧
    ∀ kv ∈ ramPfxEntries pfx txNum ram
        ++ (dbPfxEntries pfx stepSize dbRows ++ filesPfxEntries pfx files),
      (∃ v, (kv.1, v) ∈ out) ∨
      ∃ e2, ((kv.1, [], e2) : Bytes × Bytes × Nat)
          ∈ ramPfxEntries pfx txNum ram
            ++ (dbPfxEntries pfx stepSize dbRows
              ++ filesPfxEntries pfx files) ∧
        ∀ v3 e3, ((kv.1, v3, e3) : Bytes × Bytes × Nat)
            ∈ ramPfxEntries pfx txNum ram
              ++ (dbPfxEntries pfx stepSize dbRows
                ++ filesPfxEntries pfx files) → e3 ≤ e2 := by
  unfold iterateStoragePfx at h
  dsimp only at h
  rcases hini : initDbCur (MergeEnv.mk pfx (!ram.isEmpty) txNum stepSize)
    dbRows with msg2 | od
  · rw [hini] at h
    exact absurd h (by simp)
  · rw [hini] at h
    dsimp only at h
    have hrun := @mergeRun_eq (MergeEnv.mk pfx (!ram.isEmpty) txNum stepSize)
      (optCurList (initRamCur (MergeEnv.mk pfx (!ram.isEmpty) txNum
          stepSize) ram)
        ++ optCurList od
        ++ files.filterMap (initFileCur
          (MergeEnv.mk pfx (!ram.isEmpty) txNum stepSize)))
      []
    rw [h] at hrun
    obtain ⟨hrame, hraminv⟩ := @initRamCur_entries
      (MergeEnv.mk pfx (!ram.isEmpty) txNum stepSize) ram hram hramne
    obtain ⟨hdbe, hdbinv⟩ := initDbCur_ok_entries hdb hini
    obtain ⟨hfe, hfinv⟩ := @files_cursors_entries
      (MergeEnv.mk pfx (!ram.isEmpty) txNum stepSize) files hf
    have hinv : ∀ c ∈ optCurList (initRamCur
        (MergeEnv.mk pfx (!ram.isEmpty) txNum stepSize) ram)
        ++ optCurList od
        ++ files.filterMap (initFileCur
          (MergeEnv.mk pfx (!ram.isEmpty) txNum stepSize)),
        CurInv (MergeEnv.mk pfx (!ram.isEmpty) txNum stepSize) c := by
      intro c hc
      rcases List.mem_append.mp hc with hc1 | hc2
      · rcases List.mem_append.mp hc1 with hcr | hcd
        · exact (hraminv c hcr).1
        · exact (hdbinv c hcd).1
      · exact (hfinv c hc2).1
    have hentries : heapEntries
        (MergeEnv.mk pfx (!ram.isEmpty) txNum stepSize)
        (optCurList (initRamCur
          (MergeEnv.mk pfx (!ram.isEmpty) txNum stepSize) ram)
          ++ optCurList od
          ++ files.filterMap (initFileCur
            (MergeEnv.mk pfx (!ram.isEmpty) txNum stepSize)))
        = ramPfxEntries pfx txNum ram
          ++ (dbPfxEntries pfx stepSize dbRows
            ++ filesPfxEntries pfx files) := by
      rw [heapEntries_append, heapEntries_append, hrame, hdbe, hfe,
        List.append_assoc]
    obtain ⟨ho1, ho2, ho3⟩ := mergeRunF_main hrun hinv List.Pairwise.nil
      (by intro a ha; cases ha) (by intro a ha; cases ha)
    have hcomp := mergeRunF_complete hrun hinv
    refine ⟨ho1, ho2, ?_, ?_⟩
    · intro a ha
      rcases ho3 a ha with hh | ⟨etn, hmem, hmax⟩
      · cases hh
      · rw [hentries] at hmem
        refine ⟨etn, hmem, ?_⟩
        intro v2 e2 hm
        rw [← hentries] at hm
        exact hmax v2 e2 hm
    · intro kv hkv
      rw [← hentries] at hkv
      rcases hcomp kv hkv with hh | ⟨e2, hmem2, hmax2⟩
      · exact Or.inl hh
      · rw [hentries] at hmem2
        refine Or.inr ⟨e2, hmem2, ?_⟩
        intro v3 e3 hm
        rw [← hentries] at hm
        exact hmax2 v3 e3 hm

theorem ramSet_mem {k v : Bytes} {l : List (Bytes × Bytes)}
    (hs : l.Pairwise fun a b => bytesLt a.1 b.1 = true)
    {p : Bytes × Bytes} :
    p ∈ ramSet k v l ↔ p = (k, v) ∨ (p ∈ l ∧ p.1 ≠ k) := by
  induction l with
  | nil =>
    unfold ramSet
    constructor
    · intro h
      exact Or.inl (List.mem_singleton.mp h)
    · rintro (h | ⟨h, _⟩)
      · rw [h]
        simp
      · cases h
  | cons a t ih =>
    obtain ⟨ha, ht⟩ := List.pairwise_cons.mp hs
    unfold ramSet
    by_cases h1 : bytesLt a.1 k = true
    · rw [if_pos h1]
      constructor
      · intro h
        rcases List.mem_cons.mp h with hh | hh
        · right
          refine ⟨by rw [hh]; simp, ?_⟩
          rw [hh]
          intro he
          rw [← he] at h1
          rw [bytesLt_irrefl] at h1
          exact Bool.noConfusion h1
        · rcases (ih ht).mp hh with hh2 | ⟨hh2, hh3⟩
          · exact Or.inl hh2
          · exact Or.inr ⟨List.mem_cons_of_mem _ hh2, hh3⟩
      · rintro (h | ⟨h, hne⟩)
        · exact List.mem_cons_of_mem _ ((ih ht).mpr (Or.inl h))
        · rcases List.mem_cons.mp h with hh | hh
          · exact hh ▸ List.mem_cons_self _ _
          · exact List.mem_cons_of_mem _ ((ih ht).mpr (Or.inr ⟨hh, hne⟩))
    · rw [if_neg h1]
      by_cases h2 : a.1 = k
      · rw [if_pos h2]
        constructor
        · intro h
          rcases List.mem_cons.mp h with hh | hh
          · exact Or.inl hh
          · right
            refine ⟨List.mem_cons_of_mem _ hh, ?_⟩
            intro he
            have := ha p hh
            rw [he, ← h2, bytesLt_irrefl] at this
            exact Bool.noConfusion this
        · rintro (h | ⟨h, hne⟩)
          · exact h ▸ List.mem_cons_self _ _
          · rcases List.mem_cons.mp h with hh | hh
            · exfalso
              apply hne
              rw [hh, h2]
            · exact List.mem_cons_of_mem _ hh
      · rw [if_neg h2]
        constructor
        · intro h
          rcases List.mem_cons.mp h with hh | hh
          · exact Or.inl hh
          · rcases List.mem_cons.mp hh with hh2 | hh2
            · right
              refine ⟨hh2 ▸ List.mem_cons_self _ _, ?_⟩
              rw [hh2]
              exact h2
            · right
              refine ⟨List.mem_cons_of_mem _ hh2, ?_⟩
              intro he
              rcases bytesLt_total a.1 k with hq | hq | hq
              · rw [hq] at h1
                exact h1 rfl
              · exact h2 hq
              · have := ha p hh2
                have h3 := bytesLt_trans hq (he ▸ this)
                rw [bytesLt_irrefl] at h3
                exact Bool.noConfusion h3
        · rintro (h | ⟨h, hne⟩)
          · exact h ▸ List.mem_cons_self _ _
          · exact List.mem_cons_of_mem _ h

theorem ramSet_sorted {k v : Bytes} {l : List (Bytes × Bytes)}
    (hs : l.Pairwise fun a b => bytesLt a.1 b.1 = true) :
    (ramSet k v l).Pairwise fun a b => bytesLt a.1 b.1 = true := by
  induction l with
  | nil => simp [ramSet]
  | cons a t ih =>
    obtain ⟨ha, ht⟩ := List.pairwise_cons.mp hs
    unfold ramSet
    by_cases h1 : bytesLt a.1 k = true
    · rw [if_pos h1]
      rw [List.pairwise_cons]
      refine ⟨?_, ih ht⟩
      intro q hq
      rcases (ramSet_mem ht).mp hq with hh | ⟨hh, _⟩
      · rw [hh]
        exact h1
      · exact ha q hh
    · rw [if_neg h1]
      by_cases h2 : a.1 = k
      · rw [if_pos h2]
        rw [List.pairwise_cons]
        refine ⟨?_, ht⟩
        intro q hq
        have := ha q hq
        rw [h2] at this
        exact this
      · rw [if_neg h2]
        rw [List.pairwise_cons]
        have hka : bytesLt k a.1 = true := by
          rcases bytesLt_total a.1 k with hq | hq | hq
          · exact absurd hq h1
          · exact absurd hq h2
          · exact hq
        refine ⟨?_, hs⟩
        intro q hq
        rcases List.mem_cons.mp hq with hh | hh
        · rw [hh]
          exact hka
        · exact bytesLt_trans hka (ha q hh)

theorem delFold_fields (tombs : List (Bytes × Bytes)) (sd : SDStorage) :
    (tombs.foldl (fun s p => delAccountStorageSD s p.1 p.2) sd).ram
      = tombs.foldl (fun m p => ramSet p.1 [] m) sd.ram ∧
    (tombs.foldl (fun s p => delAccountStorageSD s p.1 p.2) sd).txNum
      = sd.txNum ∧
    (tombs.foldl (fun s p => delAccountStorageSD s p.1 p.2) sd).stepSize
      = sd.stepSize ∧
    (tombs.foldl (fun s p => delAccountStorageSD s p.1 p.2) sd).dbRows
      = sd.dbRows ∧
    (tombs.foldl (fun s p => delAccountStorageSD s p.1 p.2) sd).files
      = sd.files := by
  induction tombs generalizing sd with
  | nil => exact ⟨rfl, rfl, rfl, rfl, rfl⟩
  | cons a t ih =>
    simp only [List.foldl_cons]
    exact ih (delAccountStorageSD sd a.1 a.2)

theorem foldRam_sorted (tombs : List (Bytes × Bytes))
    {ram : List (Bytes × Bytes)}
    (hs : ram.Pairwise fun a b => bytesLt a.1 b.1 = true) :
    (tombs.foldl (fun m q => ramSet q.1 [] m) ram).Pairwise
      fun a b => bytesLt a.1 b.1 = true := by
  induction tombs generalizing ram with
  | nil => exact hs
  | cons a t ih =>
    simp only [List.foldl_cons]
    exact ih (ramSet_sorted hs)

theorem foldRam_mem (tombs : List (Bytes × Bytes))
    {ram : List (Bytes × Bytes)}
    (hs : ram.Pairwise fun a b => bytesLt a.1 b.1 = true)
    (p : Bytes × Bytes) :
    p ∈ tombs.foldl (fun m q => ramSet q.1 [] m) ram ↔
      (p.1 ∈ tombs.map Prod.fst ∧ p.2 = []) ∨
      (p ∈ ram ∧ p.1 ∉ tombs.map Prod.fst) := by
  induction tombs generalizing ram with
  | nil => simp
  | cons a t ih =>
    simp only [List.foldl_cons, List.map_cons]
    rw [ih (ramSet_sorted hs)]
    constructor
    · rintro (⟨h1, h2⟩ | ⟨h1, h2⟩)
      · exact Or.inl ⟨List.mem_cons_of_mem _ h1, h2⟩
      · rcases (ramSet_mem hs).mp h1 with hh | ⟨hh, hne⟩
        · left
          constructor
          · rw [hh]
            simp
          · rw [hh]
        · exact Or.inr ⟨hh, by simp [h2, hne]⟩
    · rintro (⟨h1, h2⟩ | ⟨h1, h2⟩)
      · rcases List.mem_cons.mp h1 with hh | hh
        · by_cases hmt : p.1 ∈ t.map Prod.fst
          · exact Or.inl ⟨hmt, h2⟩
          · right
            refine ⟨?_, hmt⟩
            apply (ramSet_mem hs).mpr
            left
            obtain ⟨p1, p2⟩ := p
            simp only at hh h2
            rw [hh, h2]
        · exact Or.inl ⟨hh, h2⟩
      · have hna : p.1 ≠ a.1 := by
          intro he
          exact h2 (by rw [he]; simp)
        have hnt : p.1 ∉ t.map Prod.fst := by
          intro he
          exact h2 (List.mem_cons_of_mem _ he)
        exact Or.inr ⟨(ramSet_mem hs).mpr (Or.inr ⟨h1, hna⟩), hnt⟩

theorem sorted_pairs_val_unique {l : List (Bytes × Bytes)}
    (hs : l.Pairwise fun a b => bytesLt a.1 b.1 = true) {k v1 v2 : Bytes}
    (h1 : (k, v1) ∈ l) (h2 : (k, v2) ∈ l) : v1 = v2 := by
  induction l with
  | nil => cases h1
  | cons a t ih =>
    obtain ⟨ha, ht⟩ := List.pairwise_cons.mp hs
    rcases List.mem_cons.mp h1 with hh1 | hh1 <;>
      rcases List.mem_cons.mp h2 with hh2 | hh2
    · rw [← hh1] at hh2
      exact (Prod.mk.injEq _ _ _ _ ▸ hh2 : _ ∧ _).2.symm
    · exfalso
      have := ha _ hh2
      rw [← hh1] at this
      rw [bytesLt_irrefl] at this
      exact Bool.noConfusion this
    · exfalso
      have := ha _ hh1
      rw [← hh2] at this
      rw [bytesLt_irrefl] at this
      exact Bool.noConfusion this
    · exact ih ht hh1 hh2

theorem isPfx_key_ne_nil {pfx k : Bytes} (hp : pfx ≠ [])
    (h : isPfx pfx k = true) : k ≠ [] := by
  intro hk
  subst hk
  cases pfx with
  | nil => exact hp rfl
  | cons a as => simp [isPfx, List.isPrefixOf] at h

theorem ramPfxEntries_inv {pfx : Bytes} {txNum : Nat}
    {ram : List (Bytes × Bytes)} {k v : Bytes} {e : Nat}
    (h : ((k, v, e) : Bytes × Bytes × Nat) ∈ ramPfxEntries pfx txNum ram) :
    (k, v) ∈ ram ∧ isPfx pfx k = true ∧ e = txNum := by
  obtain ⟨p, hp, hpe⟩ := List.mem_map.mp h
  have hmem := List.mem_filter.mp hp
  obtain ⟨p1, p2⟩ := p
  have h1 : p1 = k := congrArg (fun x => x.1) hpe
  have h2 : p2 = v := congrArg (fun x => x.2.1) hpe
  have h3 : txNum = e := congrArg (fun x => x.2.2) hpe
  subst h1
  subst h2
  exact ⟨hmem.1, hmem.2, h3.symm⟩

theorem ramPfxEntries_mem {pfx : Bytes} {txNum : Nat}
    {ram : List (Bytes × Bytes)} {k v : Bytes}
    (h : (k, v) ∈ ram) (hp : isPfx pfx k = true) :
    ((k, v, txNum) : Bytes × Bytes × Nat) ∈ ramPfxEntries pfx txNum ram :=
  List.mem_map.mpr ⟨(k, v), List.mem_filter.mpr ⟨h, hp⟩, rfl⟩

theorem dbPfxEntries_inv {pfx : Bytes} {stepSize : Nat} {rows : List DbRow}
    {k v : Bytes} {e : Nat}
    (h : ((k, v, e) : Bytes × Bytes × Nat)
      ∈ dbPfxEntries pfx stepSize rows) :
    ∃ r ∈ rows, isPfx pfx r.key = true ∧ r.key = k ∧ r.val = v ∧
      r.step * stepSize = e := by
  obtain ⟨r, hr, hre⟩ := List.mem_map.mp h
  have hmem := List.mem_filter.mp hr
  exact ⟨r, hmem.1, hmem.2, congrArg (fun x => x.1) hre,
    congrArg (fun x => x.2.1) hre, congrArg (fun x => x.2.2) hre⟩

theorem filesPfxEntries_inv {pfx : Bytes} {files : List FileTier}
    {k v : Bytes} {e : Nat}
    (h : ((k, v, e) : Bytes × Bytes × Nat) ∈ filesPfxEntries pfx files) :
    ∃ f ∈ files, isPfx pfx k = true ∧ f.endTxNum - 1 = e := by
  unfold filesPfxEntries at h
  obtain ⟨l, hl, hkl⟩ := List.mem_flatten.mp h
  obtain ⟨f, hf, hfe⟩ := List.mem_map.mp hl
  rw [← hfe] at hkl
  obtain ⟨p, hp, hpe⟩ := List.mem_map.mp hkl
  have hmem := List.mem_filter.mp hp
  have h1 : p.1 = k := congrArg (fun x => x.1) hpe
  have h3 : f.endTxNum - 1 = e := congrArg (fun x => x.2.2) hpe
  refine ⟨f, hf, ?_, h3⟩
  rw [← h1]
  exact hmem.2

theorem storageE_key_pfx {pfx : Bytes} {txNum stepSize : Nat}
    {ram : List (Bytes × Bytes)} {dbRows : List DbRow}
    {files : List FileTier} {k v : Bytes} {e : Nat}
    (h : ((k, v, e) : Bytes × Bytes × Nat) ∈ ramPfxEntries pfx txNum ram
      ++ (dbPfxEntries pfx stepSize dbRows ++ filesPfxEntries pfx files)) :
    isPfx pfx k = true := by
  rcases List.mem_append.mp h with h1 | h2
  · exact (ramPfxEntries_inv h1).2.1
  · rcases List.mem_append.mp h2 with h3 | h4
    · obtain ⟨r, _, hrp, hrk, _, _⟩ := dbPfxEntries_inv h3
      rw [← hrk]
      exact hrp
    · exact (filesPfxEntries_inv h4).choose_spec.2.1

theorem storageE_high {pfx : Bytes} {txNum stepSize : Nat}
    {ram : List (Bytes × Bytes)} {dbRows : List DbRow}
    {files : List FileTier} {k v : Bytes} {e : Nat}
    (hdblt : ∀ r ∈ dbRows, isPfx pfx r.key = true →
      r.step * stepSize < txNum)
    (hflt : ∀ f ∈ files, f.endTxNum - 1 < txNum)
    (h : ((k, v, e) : Bytes × Bytes × Nat) ∈ ramPfxEntries pfx txNum ram
      ++ (dbPfxEntries pfx stepSize dbRows ++ filesPfxEntries pfx files))
    (he : txNum ≤ e) : (k, v) ∈ ram ∧ e = txNum := by
  rcases List.mem_append.mp h with h1 | h2
  · have := ramPfxEntries_inv h1
    exact ⟨this.1, this.2.2⟩
  · exfalso
    rcases List.mem_append.mp h2 with h3 | h4
    · obtain ⟨r, hr, hrp, _, _, hre⟩ := dbPfxEntries_inv h3
      have := hdblt r hr hrp
      omega
    · obtain ⟨f, hf, _, hfe⟩ := filesPfxEntries_inv h4
      have := hflt f hf
      omega

/-- C6 (corrected): under the engine invariants — sorted tiers, non-empty
keys, a non-empty prefix, hot-tier and file versions strictly behind
`sd.txNum`, and value-determined ties among cold sources — a successful
`DomainDelPrefix(storage, addr)` leaves no storage key under `addr`
(`IterateStoragePrefix` yields nothing) and a second call is a successful
noop returning the state unchanged.  Without the strictly-behind
condition even the first call can fail (see the C4 analysis), so the
claim does not hold unconditionally. -/
theorem domainDelPfx_spec (sd : SDStorage) (pfx : Bytes) (sd2 : SDStorage)
    (hpfx : pfx ≠ [])
    (hram : sd.ram.Pairwise fun a b => bytesLt a.1 b.1 = true)
    (hramne : ∀ p ∈ sd.ram, p.1 ≠ [])
    (hdb : sd.dbRows.Pairwise fun a b => bytesLt a.key b.key = true)
    (hf : ∀ g ∈ sd.files, g.rows.Pairwise fun a b => bytesLt a.1 b.1 = true)
    (hdblt : ∀ r ∈ sd.dbRows, isPfx pfx r.key = true →
      r.step * sd.stepSize < sd.txNum)
    (hflt : ∀ g ∈ sd.files, g.endTxNum - 1 < sd.txNum)
    (htie : ∀ kv1 ∈ dbPfxEntries pfx sd.stepSize sd.dbRows
        ++ filesPfxEntries pfx sd.files,
      ∀ kv2 ∈ dbPfxEntries pfx sd.stepSize sd.dbRows
        ++ filesPfxEntries pfx sd.files,
      kv1.1 = kv2.1 → kv1.2.2 = kv2.2.2 → kv1.2.1 = kv2.2.1)
    (hdel : domainDelPfx sd pfx = .ok sd2) :
    iterateStoragePfxSD sd2 pfx = .ok [] ∧
      domainDelPfx sd2 pfx = .ok sd2 := by
  unfold domainDelPfx at hdel
  rcases hit : iterateStoragePfxSD sd pfx with msg | tombs
  · rw [hit] at hdel
    exact absurd hdel (by simp)
  · rw [hit] at hdel
    dsimp only at hdel
    have hsd2 : tombs.foldl (fun s p => delAccountStorageSD s p.1 p.2) sd
        = sd2 := Except.ok.inj hdel
    have hit1 : iterateStoragePfx pfx sd.txNum sd.stepSize sd.ram sd.dbRows
        sd.files = .ok tombs := hit
    obtain ⟨hto1, hto2, hto3, hto4⟩ :=
      iterateStoragePfx_ok_run hit1 hram hramne hdb hf
    have htombpfx : ∀ t ∈ tombs, isPfx pfx t.1 = true := by
      intro t ht
      obtain ⟨etn, hmem, _⟩ := hto3 t ht
      exact storageE_key_pfx hmem
    have hramtombs : ∀ k w, (k, w) ∈ sd.ram → isPfx pfx k = true →
        w ≠ [] → k ∈ tombs.map Prod.fst := by
      intro k w hkr hkp hwne
      have hkE : ((k, w, sd.txNum) : Bytes × Bytes × Nat)
          ∈ ramPfxEntries pfx sd.txNum sd.ram
            ++ (dbPfxEntries pfx sd.stepSize sd.dbRows
              ++ filesPfxEntries pfx sd.files) :=
        List.mem_append.mpr
          (Or.inl (@ramPfxEntries_mem pfx sd.txNum sd.ram k w hkr hkp))
      rcases hto4 (k, w, sd.txNum) hkE with ⟨v0, hv0⟩ | ⟨e2, hmem2, hmax2⟩
      · exact List.mem_map.mpr ⟨(k, v0), hv0, rfl⟩
      · exfalso
        have hgetx : sd.txNum ≤ e2 := hmax2 w sd.txNum hkE
        obtain ⟨hknil, he2⟩ := storageE_high hdblt hflt hmem2 hgetx
        exact hwne (sorted_pairs_val_unique hram hkr hknil)
    obtain ⟨hram2, htx2, hss2, hdbr2, hfl2⟩ := delFold_fields tombs sd
    rw [hsd2] at hram2 htx2 hss2 hdbr2 hfl2
    have hram2sorted : sd2.ram.Pairwise
        fun a b => bytesLt a.1 b.1 = true := by
      rw [hram2]
      exact foldRam_sorted tombs hram
    have hram2ne : ∀ p ∈ sd2.ram, p.1 ≠ [] := by
      intro p hp
      rw [hram2] at hp
      rcases (foldRam_mem tombs hram p).mp hp with ⟨h1, _⟩ | ⟨h1, _⟩
      · obtain ⟨t, ht, hte⟩ := List.mem_map.mp h1
        have := htombpfx t ht
        rw [hte] at this
        exact isPfx_key_ne_nil hpfx this
      · exact hramne p h1
    have hram2nil : ∀ p ∈ sd2.ram, isPfx pfx p.1 = true → p.2 = [] := by
      intro p hp hppfx
      rw [hram2] at hp
      rcases (foldRam_mem tombs hram p).mp hp with ⟨_, h2⟩ | ⟨h1, h2⟩
      · exact h2
      · by_cases hv : p.2 = []
        · exact hv
        · exfalso
          apply h2
          obtain ⟨p1, p2⟩ := p
          exact hramtombs p1 p2 h1 hppfx hv
    rcases hit2 : iterateStoragePfxSD sd2 pfx with msg2 | out2
    · exfalso
      have hdb2 : sd2.dbRows.Pairwise
          fun a b => bytesLt a.key b.key = true := by
        rw [hdbr2]
        exact hdb
      have herr := (@iterateStoragePfx_error_iff pfx sd2.txNum sd2.stepSize
        sd2.ram sd2.dbRows sd2.files hdb2).mp ⟨msg2, hit2⟩
      obtain ⟨_, r, hrmem, hrpfx, hrbad⟩ := herr
      rw [hdbr2] at hrmem
      rw [htx2, hss2] at hrbad
      have := hdblt r hrmem hrpfx
      omega
    · have hit2a : iterateStoragePfx pfx sd2.txNum sd2.stepSize sd2.ram
          sd2.dbRows sd2.files = .ok out2 := hit2
      rw [htx2, hss2, hdbr2, hfl2] at hit2a
      obtain ⟨h2o1, h2o2, h2o3, h2o4⟩ :=
        iterateStoragePfx_ok_run hit2a hram2sorted hram2ne hdb hf
      cases hout2 : out2 with
      | cons a t =>
        exfalso
        have hamem : a ∈ out2 := by
          rw [hout2]
          simp
        have ha2ne := h2o2 a hamem
        obtain ⟨etn, hmem, hmax⟩ := h2o3 a hamem
        have hapfx : isPfx pfx a.1 = true := storageE_key_pfx hmem
        by_cases hge : sd.txNum ≤ etn
        · obtain ⟨hain, hetn⟩ := storageE_high hdblt hflt hmem hge
          exact ha2ne (hram2nil (a.1, a.2) hain hapfx)
        · have hlt : etn < sd.txNum := by omega
          have hnoram2 : ∀ w, (a.1, w) ∉ sd2.ram := by
            intro w hw
            have hwE : ((a.1, w, sd.txNum) : Bytes × Bytes × Nat)
                ∈ ramPfxEntries pfx sd.txNum sd2.ram
                  ++ (dbPfxEntries pfx sd.stepSize sd.dbRows
                    ++ filesPfxEntries pfx sd.files) :=
              List.mem_append.mpr
                (Or.inl (@ramPfxEntries_mem pfx sd.txNum sd2.ram a.1 w
                  hw hapfx))
            have := hmax w sd.txNum hwE
            omega
          have hnotombs : a.1 ∉ tombs.map Prod.fst := by
            intro hmem3
            exact hnoram2 [] (by
              rw [hram2]
              exact (foldRam_mem tombs hram (a.1, [])).mpr
                (Or.inl ⟨hmem3, rfl⟩))
          have hdbfile : ((a.1, a.2, etn) : Bytes × Bytes × Nat)
              ∈ dbPfxEntries pfx sd.stepSize sd.dbRows
                ++ filesPfxEntries pfx sd.files := by
            rcases List.mem_append.mp hmem with h1 | h2
            · exfalso
              have := (ramPfxEntries_inv h1).2.2
              omega
            · exact h2
          have hE1 : ((a.1, a.2, etn) : Bytes × Bytes × Nat)
              ∈ ramPfxEntries pfx sd.txNum sd.ram
                ++ (dbPfxEntries pfx sd.stepSize sd.dbRows
                  ++ filesPfxEntries pfx sd.files) :=
            List.mem_append.mpr (Or.inr hdbfile)
          rcases hto4 (a.1, a.2, etn) hE1 with ⟨v0, hv0⟩ |
            ⟨e2, hmem2, hmax2⟩
          · exact hnotombs (List.mem_map.mpr ⟨(a.1, v0), hv0, rfl⟩)
          · have hetn_le : etn ≤ e2 := hmax2 a.2 etn hE1
            have hdf2 : ((a.1, [], e2) : Bytes × Bytes × Nat)
                ∈ dbPfxEntries pfx sd.stepSize sd.dbRows
                  ++ filesPfxEntries pfx sd.files := by
              rcases List.mem_append.mp hmem2 with h1 | h2
              · exfalso
                obtain ⟨hin, hpe, he2⟩ := ramPfxEntries_inv h1
                exact hnoram2 [] (by
                  rw [hram2]
                  exact (foldRam_mem tombs hram (a.1, [])).mpr
                    (Or.inr ⟨hin, hnotombs⟩))
              · exact h2
            have he2E2 : ((a.1, [], e2) : Bytes × Bytes × Nat)
                ∈ ramPfxEntries pfx sd.txNum sd2.ram
                  ++ (dbPfxEntries pfx sd.stepSize sd.dbRows
                    ++ filesPfxEntries pfx sd.files) :=
              List.mem_append.mpr (Or.inr hdf2)
            have he2_le : e2 ≤ etn := hmax [] e2 he2E2
            have heq : etn = e2 := le_antisymm hetn_le he2_le
            have hval := htie (a.1, a.2, etn) hdbfile (a.1, [], e2) hdf2
              rfl (by simpa using heq)
            exact ha2ne (by simpa using hval)
      | nil =>
        rw [hout2] at hit2
        refine ⟨rfl, ?_⟩
        unfold domainDelPfx
        rw [hit2]
        rfl


theorem domainDelPfx_spec_witness :
    domainDelPfx
        { ram := [], txNum := 5, stepSize := 1,
          dbRows := [{ key := [1, 1], step := 2, val := [42] }],
          files := [{ endTxNum := 3, rows := [([1, 2], [7])] }],
          writerOps := [], touched := [] } [1]
      = .ok
        { ram := [([1, 1], []), ([1, 2], [])], txNum := 5, stepSize := 1,
          dbRows := [{ key := [1, 1], step := 2, val := [42] }],
          files := [{ endTxNum := 3, rows := [([1, 2], [7])] }],
          writerOps := [([1, 1], [42]), ([1, 2], [7])],
          touched := [[1, 1], [1, 2]] } ∧
    iterateStoragePfxSD
        { ram := [([1, 1], []), ([1, 2], [])], txNum := 5, stepSize := 1,
          dbRows := [{ key := [1, 1], step := 2, val := [42] }],
          files := [{ endTxNum := 3, rows := [([1, 2], [7])] }],
          writerOps := [([1, 1], [42]), ([1, 2], [7])],
          touched := [[1, 1], [1, 2]] } [1] = .ok [] ∧
    domainDelPfx
        { ram := [([1, 1], []), ([1, 2], [])], txNum := 5, stepSize := 1,
          dbRows := [{ key := [1, 1], step := 2, val := [42] }],
          files := [{ endTxNum := 3, rows := [([1, 2], [7])] }],
          writerOps := [([1, 1], [42]), ([1, 2], [7])],
          touched := [[1, 1], [1, 2]] } [1]
      = .ok
        { ram := [([1, 1], []), ([1, 2], [])], txNum := 5, stepSize := 1,
          dbRows := [{ key := [1, 1], step := 2, val := [42] }],
          files := [{ endTxNum := 3, rows := [([1, 2], [7])] }],
          writerOps := [([1, 1], [42]), ([1, 2], [7])],
          touched := [[1, 1], [1, 2]] } := by
  refine ⟨by rfl, ?_⟩
  exact domainDelPfx_spec
    { ram := [], txNum := 5, stepSize := 1,
      dbRows := [{ key := [1, 1], step := 2, val := [42] }],
      files := [{ endTxNum := 3, rows := [([1, 2], [7])] }],
      writerOps := [], touched := [] } [1]
    { ram := [([1, 1], []), ([1, 2], [])], txNum := 5, stepSize := 1,
      dbRows := [{ key := [1, 1], step := 2, val := [42] }],
      files := [{ endTxNum := 3, rows := [([1, 2], [7])] }],
      writerOps := [([1, 1], [42]), ([1, 2], [7])],
      touched := [[1, 1], [1, 2]] }
    (by decide) (by decide) (by decide) (by decide) (by decide) (by decide)
    (by decide) (by decide) (by rfl)

/-- The second `DomainDelPrefix` call is not unconditionally a successful
noop: the first call plants tombstones in the in-memory map, so the
second call runs with `haveRamUpdates = true` and the `ram must be ahead
of db` check now fires on a hot-tier row whose `endTxNum` is not strictly
behind `sd.txNum`. -/
theorem domainDelPfx_idem_counterexample :
    domainDelPfx
        { ram := [], txNum := 0, stepSize := 1,
          dbRows := [{ key := [1], step := 0, val := [42] }],
          files := [], writerOps := [], touched := [] } [1]
      = .ok
        { ram := [([1], [])], txNum := 0, stepSize := 1,
          dbRows := [{ key := [1], step := 0, val := [42] }],
          files := [], writerOps := [([1], [42])], touched := [[1]] } ∧
    domainDelPfx
        { ram := [([1], [])], txNum := 0, stepSize := 1,
          dbRows := [{ key := [1], step := 0, val := [42] }],
          files := [], writerOps := [([1], [42])], touched := [[1]] } [1]
      = .error "ram must be ahead of db" := ⟨rfl, rfl⟩

end ErigonState
